import Mathlib

/-!
Verification development for the veintidos chunked, deduplicating,
content-addressable store (`veintidos/cas.py`, `veintidos/recipe.py`,
`veintidos/chunk.py`, `veintidos/fingerprint.py`, `veintidos/compressor.py`).

Python 2 byte strings are modelled as `List Nat` (one entry per byte).
The external msgpack library (used by `SimpleRecipe.pack` / `unpack`) is
modelled by an explicit encoder/decoder for the msgpack wire format
restricted to the families the recipe codec actually produces
(positive integers, raw/str byte strings, arrays); all other msgpack
families are treated as decode errors by the model.  The RADOS backend
(object store, object-class execute, omap) is modelled as explicit state.
-/

/-- Python 2 byte string: a list of byte values. -/
abbrev Bytes := List Nat

/-- Python lexicographic comparison of two byte strings (`a < b`). -/
def bytesLt : Bytes → Bytes → Bool
  | [], [] => false
  | [], _ :: _ => true
  | _ :: _, [] => false
  | a :: as, b :: bs => a < b || (a == b && bytesLt as bs)

/-- Association-list lookup (first binding wins, as in the backend keyspace). -/
def alLookup {α : Type} : List (Bytes × α) → Bytes → Option α
  | [], _ => none
  | (k, v) :: rest, key => if key = k then some v else alLookup rest key

/-- Association-list insert/overwrite, keeping the position of an existing key. -/
def alInsert {α : Type} : List (Bytes × α) → Bytes → α → List (Bytes × α)
  | [], key, v => [(key, v)]
  | (k, w) :: rest, key, v =>
      if key = k then (key, v) :: rest else (k, w) :: alInsert rest key v

/-- Association-list removal of a key. -/
def alRemove {α : Type} : List (Bytes × α) → Bytes → List (Bytes × α)
  | [], _ => []
  | (k, w) :: rest, key => if key = k then rest else (k, w) :: alRemove rest key

/-- One recipe extent `(offset, length, fingerprint)` (`recipe.py`'s
`(offset, length, fp)` tuples; the fingerprint is the digest byte string). -/
structure Extent where
  off : Nat
  len : Nat
  fp : Bytes
deriving DecidableEq, Repr

/-- `get_extents_in_range(recipe, length, offset)` of `recipe.py`: keeps an
extent when its start or its end falls inside the closed interval
`[offset, offset + length]`.  Argument order (length before offset) follows
the source. -/
def getExtentsInRange (recipe : List Extent) (length offset : Nat) : List Extent :=
  recipe.filter fun e =>
    decide ((offset ≤ e.off ∧ e.off ≤ offset + length) ∨
            (offset ≤ e.off + e.len ∧ e.off + e.len ≤ offset + length))

/-- Overlap of an extent with the half-open range `[offset, offset+length)`,
written from the spec's words ("every extent that overlaps
`[offset, offset+length)`"), to compare against `getExtentsInRange`. -/
def specOverlaps (e : Extent) (offset length : Nat) : Prop :=
  e.off < offset + length ∧ offset < e.off + e.len

instance (e : Extent) (offset length : Nat) : Decidable (specOverlaps e offset length) := by
  unfold specOverlaps; infer_instance

/-! ## msgpack model

`SimpleRecipe.pack` is `msgpack.packb((header, fps))`; `unpack` is
`msgpack.unpackb(data, use_list=False)` plus a header check.  We model the
wire format for the value shapes the codec produces: non-negative integers
(positive fixint, uint8/16/32/64), py2 `str` byte strings (fixraw,
raw16, raw32), and tuples (fixarray, array16, array32). -/

/-- A decoded msgpack value (restricted to the families used by recipes). -/
inductive MVal where
  | uint (n : Nat)
  | str (s : Bytes)
  | arr (vs : List MVal)

/-- `k` big-endian bytes of `n` (most significant first). -/
def beBytes : Nat → Nat → Bytes
  | 0, _ => []
  | k + 1, n => (n / 256 ^ k) :: beBytes k (n % 256 ^ k)

/-- Read `k` big-endian bytes; fails if fewer are available. -/
def readBE : Nat → Bytes → Option (Nat × Bytes)
  | 0, bs => some (0, bs)
  | _ + 1, [] => none
  | k + 1, b :: bs => (readBE k bs).map fun p => (b * 256 ^ k + p.1, p.2)

/-- Split off exactly `n` leading bytes; fails if fewer are available. -/
def takeExactly : Nat → Bytes → Option (Bytes × Bytes)
  | 0, bs => some ([], bs)
  | _ + 1, [] => none
  | n + 1, b :: bs => (takeExactly n bs).map fun p => (b :: p.1, p.2)

/-- msgpack encoding of a non-negative integer; `none` models the
`OverflowError` msgpack raises at `2^64` and beyond. -/
def encUint (n : Nat) : Option Bytes :=
  if n < 128 then some [n]
  else if n < 256 then some [0xcc, n]
  else if n < 2 ^ 16 then some (0xcd :: beBytes 2 n)
  else if n < 2 ^ 32 then some (0xce :: beBytes 4 n)
  else if n < 2 ^ 64 then some (0xcf :: beBytes 8 n)
  else none

/-- msgpack encoding of a py2 `str` (raw family). -/
def encStr (s : Bytes) : Option Bytes :=
  if s.length < 32 then some ((0xa0 + s.length) :: s)
  else if s.length < 2 ^ 16 then some (0xda :: (beBytes 2 s.length ++ s))
  else if s.length < 2 ^ 32 then some (0xdb :: (beBytes 4 s.length ++ s))
  else none

/-- msgpack array header for `n` elements. -/
def encArrTag (n : Nat) : Option Bytes :=
  if n < 16 then some [0x90 + n]
  else if n < 2 ^ 16 then some (0xdc :: beBytes 2 n)
  else if n < 2 ^ 32 then some (0xdd :: beBytes 4 n)
  else none

/-- One decoding step outcome: a complete primitive value, an array header
whose elements remain to be decoded, or a failure (truncated input or a
msgpack family outside the model). -/
inductive DecAction where
  | prim (v : MVal) (rest : Bytes)
  | arrHdr (count : Nat) (rest : Bytes)
  | fail

/-- Dispatch on the msgpack tag byte `b` (with `bs` the following bytes). -/
def decodeHeadB (b : Nat) (bs : Bytes) : DecAction :=
  if b < 0x80 then .prim (.uint b) bs
  else if 0x90 ≤ b ∧ b < 0xa0 then .arrHdr (b - 0x90) bs
  else if 0xa0 ≤ b ∧ b < 0xc0 then
    match takeExactly (b - 0xa0) bs with
    | none => .fail
    | some (s, r) => .prim (.str s) r
  else if b = 0xcc then
    match bs with
    | [] => .fail
    | x :: r => .prim (.uint x) r
  else if b = 0xcd then
    match readBE 2 bs with
    | none => .fail
    | some (n, r) => .prim (.uint n) r
  else if b = 0xce then
    match readBE 4 bs with
    | none => .fail
    | some (n, r) => .prim (.uint n) r
  else if b = 0xcf then
    match readBE 8 bs with
    | none => .fail
    | some (n, r) => .prim (.uint n) r
  else if b = 0xda then
    match readBE 2 bs with
    | none => .fail
    | some (n, r1) =>
      match takeExactly n r1 with
      | none => .fail
      | some (s, r) => .prim (.str s) r
  else if b = 0xdb then
    match readBE 4 bs with
    | none => .fail
    | some (n, r1) =>
      match takeExactly n r1 with
      | none => .fail
      | some (s, r) => .prim (.str s) r
  else if b = 0xdc then
    match readBE 2 bs with
    | none => .fail
    | some (n, r) => .arrHdr n r
  else if b = 0xdd then
    match readBE 4 bs with
    | none => .fail
    | some (n, r) => .arrHdr n r
  else .fail

/-- One decoding step on the input byte string. -/
def decodeHead : Bytes → DecAction
  | [] => .fail
  | b :: bs => decodeHeadB b bs

/-- Decode exactly `count` consecutive msgpack values.  `fuel` strictly
decreases on every recursive call (one level per value), so the definition
is structural and kernel-reducible; `msgUnpackb` supplies ample fuel. -/
def decodeN : Nat → Nat → Bytes → Option (List MVal × Bytes)
  | 0, _, _ => none
  | _ + 1, 0, bs => some ([], bs)
  | f + 1, count + 1, bs =>
    match decodeHead bs with
    | .prim v rest => (decodeN f count rest).map fun p => (v :: p.1, p.2)
    | .arrHdr n rest =>
      match decodeN f n rest with
      | none => none
      | some (vs, r) => (decodeN f count r).map fun p => (.arr vs :: p.1, p.2)
    | .fail => none

/-- `msgpack.unpackb` as far as decoding goes: one value plus the remaining
(extra) bytes. -/
def msgUnpackb (data : Bytes) : Option (MVal × Bytes) :=
  match decodeN (2 * data.length + 9) 1 data with
  | some ([v], r) => some (v, r)
  | _ => none

/-- The msgpack value a packed extent decodes back to (with
`use_list=False`, tuples come back as tuples; py2 `str` comes back as
`str`). -/
def Extent.toMVal (e : Extent) : MVal :=
  .arr [.uint e.off, .uint e.len, .str e.fp]

/-- msgpack encoding of one extent tuple (a fixarray of 3 elements). -/
def packExtent (e : Extent) : Option Bytes := do
  let o ← encUint e.off
  let l ← encUint e.len
  let f ← encStr e.fp
  some (0x93 :: (o ++ l ++ f))

/-- `msgpack.packb(((ver,), fps))` for an extent list: a 2-element array of
the header tuple `(ver,)` and the extent array.  `SimpleRecipe.pack` is the
`ver = 0` instance. -/
def packRecipeV (ver : Nat) (E : List Extent) : Option Bytes := do
  let hv ← encUint ver
  let tag ← encArrTag E.length
  let body ← E.mapM packExtent
  some (0x92 :: ((0x91 :: hv) ++ (tag ++ body.flatten)))

/-- `SimpleRecipe(E).pack()` (`recipe.py`): header version is 0. -/
def packRecipe (E : List Extent) : Option Bytes := packRecipeV 0 E

/-- Result of `SimpleRecipe.unpack`:
`ok fps` — a recipe object holding the decoded `fps` value;
`extraData` — msgpack found trailing bytes, the `except msgpack.ExtraData`
handler logs and returns `None`;
`badVersion` — the `RuntimeError("Unsupported version")` raise;
`error` — any other exception propagating out of `unpackb` or the tuple
destructuring. -/
inductive UnpackResult where
  | ok (fps : MVal)
  | extraData
  | badVersion
  | error

/-- `header[0]`: indexing the decoded header value, as Python would. -/
def mvalIndex0 : MVal → Option MVal
  | .arr (h :: _) => some h
  | .str (c :: _) => some (.str [c])
  | _ => none

/-- `SimpleRecipe.unpack(data)` (`recipe.py`): msgpack-decode, return `None`
on trailing data, destructure `(header, fps)`, reject header versions other
than 0. -/
def unpackRecipe (data : Bytes) : UnpackResult :=
  match msgUnpackb data with
  | none => .error
  | some (_, _ :: _) => .extraData
  | some (v, []) =>
    match v with
    | .arr [header, fpsv] =>
      match mvalIndex0 header with
      | some h0 =>
        match h0 with
        | .uint 0 => .ok fpsv
        | _ => .badVersion
      | none => .error
    | _ => .error

/-! ## SHA-256 (`fingerprint.py` delegates to `hashlib.sha256`)

The fingerprint function is external library code; it is embedded here as
the actual SHA-256 algorithm over byte lists, with 32-bit words as `Nat`
reduced `% 2^32`. -/

/-- Right-rotate a 32-bit word. -/
def rotr32 (n x : Nat) : Nat := ((x >>> n) ||| (x <<< (32 - n))) % 4294967296

/-- SHA-256 round constants. -/
def shaK : List Nat :=
  [1116352408, 1899447441, 3049323471, 3921009573, 961987163, 1508970993,
   2453635748, 2870763221, 3624381080, 310598401, 607225278, 1426881987,
   1925078388, 2162078206, 2614888103, 3248222580, 3835390401, 4022224774,
   264347078, 604807628, 770255983, 1249150122, 1555081692, 1996064986,
   2554220882, 2821834349, 2952996808, 3210313671, 3336571891, 3584528711,
   113926993, 338241895, 666307205, 773529912, 1294757372, 1396182291,
   1695183700, 1986661051, 2177026350, 2456956037, 2730485921, 2820302411,
   3259730800, 3345764771, 3516065817, 3600352804, 4094571909, 275423344,
   430227734, 506948616, 659060556, 883997877, 958139571, 1322822218,
   1537002063, 1747873779, 1955562222, 2024104815, 2227730452, 2361852424,
   2428436474, 2756734187, 3204031479, 3329325298]

/-- SHA-256 initial hash state. -/
def shaH0 : List Nat :=
  [1779033703, 3144134277, 1013904242, 2773480762,
   1359893119, 2600822924, 528734635, 1541459225]

/-- Group bytes into big-endian 32-bit words. -/
def toWords : Bytes → List Nat
  | a :: b :: c :: d :: rest => (((a * 256 + b) * 256 + c) * 256 + d) :: toWords rest
  | _ => []

/-- Message-schedule extension: append `count` further words. -/
def shaExtend (w : List Nat) : Nat → List Nat
  | 0 => w
  | count + 1 =>
    let i := w.length
    let s0 :=
      let x := w.getD (i - 15) 0
      (rotr32 7 x) ^^^ (rotr32 18 x) ^^^ (x >>> 3)
    let s1 :=
      let x := w.getD (i - 2) 0
      (rotr32 17 x) ^^^ (rotr32 19 x) ^^^ (x >>> 10)
    shaExtend (w ++ [(w.getD (i - 16) 0 + s0 + w.getD (i - 7) 0 + s1) % 4294967296]) count

/-- One SHA-256 round. -/
def shaRound (s : List Nat) (kw : Nat × Nat) : List Nat :=
  let a := s.getD 0 0
  let b := s.getD 1 0
  let c := s.getD 2 0
  let d := s.getD 3 0
  let e := s.getD 4 0
  let f := s.getD 5 0
  let g := s.getD 6 0
  let h := s.getD 7 0
  let S1 := (rotr32 6 e) ^^^ (rotr32 11 e) ^^^ (rotr32 25 e)
  let ch := (e &&& f) ^^^ ((4294967295 - e) &&& g)
  let t1 := (h + S1 + ch + kw.1 + kw.2) % 4294967296
  let S0 := (rotr32 2 a) ^^^ (rotr32 13 a) ^^^ (rotr32 22 a)
  let mj := (a &&& b) ^^^ (a &&& c) ^^^ (b &&& c)
  let t2 := (S0 + mj) % 4294967296
  [(t1 + t2) % 4294967296, a, b, c, (d + t1) % 4294967296, e, f, g]

/-- Compress one 64-byte block into the running hash state. -/
def shaCompress (h : List Nat) (block : Bytes) : List Nat :=
  let w := shaExtend (toWords block) 48
  let s := (shaK.zip w).foldl shaRound h
  List.zipWith (fun x y => (x + y) % 4294967296) h s

/-- SHA-256 padding: `0x80`, zeros, 8-byte big-endian bit length. -/
def shaPad (msg : Bytes) : Bytes :=
  msg ++ 0x80 :: List.replicate ((119 - msg.length % 64) % 64) 0
      ++ beBytes 8 (msg.length * 8)

/-- Split into 64-byte blocks (input length is a multiple of 64). -/
def chunks64 : Nat → Bytes → List Bytes
  | 0, _ => []
  | _ + 1, [] => []
  | f + 1, l => l.take 64 :: chunks64 f (l.drop 64)

/-- Lower-case hex digit (ASCII), as `hexdigest` produces. -/
def hexChar (n : Nat) : Nat := if n < 10 then 48 + n else 87 + n

/-- `hashlib.sha256(data).hexdigest()` as a byte string. -/
def sha256hex (data : Bytes) : Bytes :=
  let words := (chunks64 (shaPad data).length (shaPad data)).foldl shaCompress shaH0
  (words.flatMap (beBytes 4)).flatMap fun b => [hexChar (b / 16), hexChar (b % 16)]

/-- `fingerprint(data)` (`fingerprint.py`): the `("SHA-256", hexdigest)`
pair. -/
def fingerprint (data : Bytes) : Bytes × Bytes :=
  ([83, 72, 65, 45, 50, 53, 54], sha256hex data)

/-! ## Compressor registry (`compressor.py`)

The registry holds the identity compressor `"no"` plus snappy/bz2, whose
algorithms are external C libraries.  A `Compressor` value carries the
identifier stored as object metadata plus its compress/decompress
functions; theorems about policy-independent behaviour quantify over
arbitrary `Compressor` values, and the concrete registry used by state
evaluation contains the identity compressor. -/

/-- A compressor as the CAS class consumes it. -/
structure Compressor where
  ident : Bytes
  comp : Bytes → Bytes
  decomp : Bytes → Bytes

/-- The identifier `"no"`. -/
def noIdent : Bytes := [110, 111]

/-- The identity ("no") compressor, always registered. -/
def noCompressor : Compressor := ⟨noIdent, id, id⟩

/-- `Compressor.select` restricted to the always-present identity entry
(snappy/bz2 bodies are external libraries, not modelled). -/
def compressorSelect (ident : Bytes) : Option Compressor :=
  if ident = noIdent then some noCompressor else none

/-! ## CAS (`cas.py`) over an explicit backend state -/

/-- One backend CAS object: refcount, stored (compressed) payload, and the
compression identifier from its metadata. -/
structure CASObj where
  rc : Nat
  data : Bytes
  compression : Bytes
deriving DecidableEq, Repr

/-- The CAS namespace: fingerprint digest → object. -/
abbrev CASState := List (Bytes × CASObj)

/-- Backend `cas.put` object-class call (create-or-bump): returns status 0;
an existing object keeps its payload and metadata and gains a reference. -/
def backendPut (st : CASState) (fp : Bytes) (payload : Bytes) (compression : Bytes) :
    Nat × CASState :=
  match alLookup st fp with
  | some obj => (0, alInsert st fp { obj with rc := obj.rc + 1 })
  | none => (0, alInsert st fp ⟨1, payload, compression⟩)

/-- Backend `cas.up` object-class call: `.ok (0, st)` on success, `.error`
models the `rados.Error` the binding raises when the object is absent. -/
def backendUp (st : CASState) (fp : Bytes) : Except Unit (Nat × CASState) :=
  match alLookup st fp with
  | some obj => .ok (0, alInsert st fp { obj with rc := obj.rc + 1 })
  | none => .error ()

/-- Backend `cas.down` object-class call: decrement, delete at zero;
`.error` models the raised `rados.Error` for an absent object (which also
covers "decrement below zero", since the backend deletes at zero). -/
def backendDown (st : CASState) (fp : Bytes) : Except Unit (Nat × CASState) :=
  match alLookup st fp with
  | some obj =>
      if obj.rc ≤ 1 then .ok (0, alRemove st fp)
      else .ok (0, alInsert st fp { obj with rc := obj.rc - 1 })
  | none => .error ()

/-- `CAS.put(data)` (`cas.py`): fingerprint the uncompressed input, compress
per the store's policy, submit to create-or-bump, return the fingerprint. -/
def casPut (st : CASState) (c : Compressor) (data : Bytes) : Bytes × CASState :=
  let fp := (fingerprint data).2
  let (_, st') := backendPut st fp (c.comp data) c.ident
  (fp, st')

/-- `CAS.get(fp, off, size)` (`cas.py`): fetch the whole object, select the
decompressor from the object's stored metadata via the registry `reg`,
decompress, then slice `[off:off+size]` of the decompressed bytes
(`size < 0`, the default `-1`, means the decompressed length).  `none`
models the raised `ObjectNotFound` / `UnknownCompressor`. -/
def casGet (reg : Bytes → Option Compressor) (st : CASState) (fp : Bytes)
    (off : Nat) (size : Int) : Option Bytes := do
  let obj ← alLookup st fp
  let c ← reg obj.compression
  let data := c.decomp obj.data
  let sz : Nat := if size < 0 then data.length else size.toNat
  some ((data.drop off).take sz)

/-- `CAS.up(fp)` (`cas.py`): `True` when the backend call returns 0; the
`except rados.Error` arm returns `False`.  The `some`/`none` layer records
that Python falls off the function (returning `None`) if the backend were
to return a nonzero status without raising. -/
def casUp (st : CASState) (fp : Bytes) : Option Bool × CASState :=
  match backendUp st fp with
  | .ok (ret, st') => (if ret = 0 then some true else none, st')
  | .error _ => (some false, st)

/-- `CAS.down(fp)` (`cas.py`): same shape as `casUp`. -/
def casDown (st : CASState) (fp : Bytes) : Option Bool × CASState :=
  match backendDown st fp with
  | .ok (ret, st') => (if ret = 0 then some true else none, st')
  | .error _ => (some false, st)

/-- Refcount visible for a fingerprint, if the object exists. -/
def casRc (st : CASState) (fp : Bytes) : Option Nat :=
  (alLookup st fp).map (·.rc)

/-! ## Chunker (`chunk.py`) -/

/-- Version-index state: logical name → index-object omap
(version key → recipe fingerprint), the omap kept key-sorted as RADOS
returns it. -/
abbrev IndexState := List (Bytes × List (Bytes × Bytes))

/-- Full system state: CAS namespace plus INDEX namespace. -/
structure VState where
  cas : CASState
  index : IndexState

/-- Sorted omap insert/overwrite (RADOS omaps are key-ordered). -/
def omapInsert : List (Bytes × Bytes) → Bytes → Bytes → List (Bytes × Bytes)
  | [], key, v => [(key, v)]
  | (k, w) :: rest, key, v =>
      if key = k then (key, v) :: rest
      else if bytesLt key k then (key, v) :: (k, w) :: rest
      else (k, w) :: omapInsert rest key v

/-- `set_omap` on an index object, creating the object when absent (a RADOS
write op creates its target). -/
def omapSet (idx : IndexState) (name key val : Bytes) : IndexState :=
  match alLookup idx name with
  | some m => alInsert idx name (omapInsert m key val)
  | none => alInsert idx name [(key, val)]

/-- `remove_omap_keys` on an index object (write op; creates when absent). -/
def omapRemoveKeys (idx : IndexState) (name : Bytes) (keys : List Bytes) : IndexState :=
  match alLookup idx name with
  | some m => alInsert idx name (m.filter fun p => decide (p.1 ∉ keys))
  | none => alInsert idx name []

/-- `make_index_version()` = `int(time.time()*1000)`: the wall-clock
millisecond reading is passed in as `now`. -/
def makeIndexVersion (now : Nat) : Nat := now

/-- Decimal digits of `n` in ASCII (`str(n)` for a natural number). -/
def decDigits : Nat → Nat → Bytes
  | 0, _ => []
  | f + 1, n => if n < 10 then [48 + n] else decDigits f (n / 10) ++ [48 + n % 10]

/-- `str(make_index_version())`: the version key stored in the omap. -/
def decBytes (n : Nat) : Bytes := decDigits (n + 1) n

/-- The special version string `"HEAD"`. -/
def headBytes : Bytes := [72, 69, 65, 68]

/-- Python `max` over byte strings; `none` for the empty list. -/
def pyMaxBytes : List Bytes → Option Bytes
  | [] => none
  | x :: xs => some (xs.foldl (fun cur y => if bytesLt cur y then y else cur) x)

/-- Python tuple comparison `(k, v) < (k', v')`. -/
def pairLtB (a b : Bytes × Bytes) : Bool :=
  bytesLt a.1 b.1 || (a.1 == b.1 && bytesLt a.2 b.2)

/-- Python `max` over `(version, recipe)` pairs; `none` for the empty list. -/
def pyMaxPair (l : List (Bytes × Bytes)) : Option (Bytes × Bytes) :=
  match l with
  | [] => none
  | x :: xs => some (xs.foldl (fun cur y => if pairLtB cur y then y else cur) x)

/-- `dict(pairs)[k]`: a Python dict built from pairs keeps the last binding
of a duplicated key. -/
def dictLookup (l : List (Bytes × Bytes)) (k : Bytes) : Option Bytes :=
  alLookup l.reverse k

/-- `static_chunker` (`chunk.py`) on an in-memory byte buffer: fixed-size
windows, the last possibly short; both the mmap and the fallback strategy
produce exactly these `(start, size, chunk bytes)` entries, and a chunk's
bytes always have the declared size.  The fuel is the buffer length (each
step consumes at least one byte for `cs > 0`). -/
def staticChunksAux (cs : Nat) : Nat → Bytes → Nat → List (Nat × Nat × Bytes)
  | 0, _, _ => []
  | _ + 1, [], _ => []
  | f + 1, r :: rs, start =>
      (start, min cs (r :: rs).length, (r :: rs).take cs) ::
        staticChunksAux cs f ((r :: rs).drop cs) (start + cs)

/-- Chunk a whole buffer starting at offset 0. -/
def staticChunks (cs : Nat) (data : Bytes) : List (Nat × Nat × Bytes) :=
  staticChunksAux cs data.length data 0

/-- `Chunker._write_chunks` via `_cas_put_wrapper` (`chunk.py`): each chunk
is materialized, its length checked against the declared size (`assert`,
`none` when violated), written with `CAS.put`, and the extents are
collected in input (offset) order — `pool.imap` (not `imap_unordered`)
returns results in submission order regardless of worker completion order,
modelled here as its in-order linearization. -/
def writeChunks (st : CASState) (c : Compressor) :
    List (Nat × Nat × Bytes) → Option (List Extent × CASState)
  | [] => some ([], st)
  | (off, size, chunk) :: rest =>
      if chunk.length = size then
        let (fp, st') := casPut st c chunk
        (writeChunks st' c rest).map fun p => (⟨off, size, fp⟩ :: p.1, p.2)
      else none

/-- `Chunker.write_full(name, file_)` (`chunk.py`): chunk, write chunks,
pack the recipe, `CAS.put` the recipe, and insert
`str(make_index_version()) -> recipe fingerprint` into the name's index
omap.  `now` is the millisecond clock reading; `none` covers the assert
and msgpack overflow raises. -/
def writeFull (st : VState) (c : Compressor) (name : Bytes) (file : Bytes)
    (now : Nat) (cs : Nat) : Option (Bytes × VState) := do
  let (exts, cas') ← writeChunks st.cas c (staticChunks cs file)
  let rbytes ← packRecipe exts
  let (rfp, cas'') := casPut cas' c rbytes
  let key := decBytes (makeIndexVersion now)
  some (key, ⟨cas'', omapSet st.index name key rfp⟩)

/-- A sequence of `write_full` calls on one name; each list entry is the
file content and the millisecond clock reading observed by that call. -/
def writeFullSeq (st : VState) (c : Compressor) (name : Bytes) (cs : Nat) :
    List (Bytes × Nat) → Option (List Bytes × VState)
  | [] => some ([], st)
  | (file, t) :: rest => do
      let (k, st') ← writeFull st c name file t cs
      let (ks, st'') ← writeFullSeq st' c name cs rest
      some (k :: ks, st'')

/-- `Chunker._versions_and_recipes(name)`: the omap of the index object;
`none` models the `ObjectNotFound` raise for an absent index object. -/
def versionsAndRecipes (st : VState) (name : Bytes) : Option (List (Bytes × Bytes)) :=
  alLookup st.index name

/-- `Chunker.versions(name)`. -/
def versionsOp (st : VState) (name : Bytes) : Option (List Bytes) :=
  (versionsAndRecipes st name).map (·.map Prod.fst)

/-- `Chunker.head_version(name)`: outer `none` is the `ObjectNotFound`
raise; inner `none` is the Python `None` returned when there are no
versions. -/
def headVersion (st : VState) (name : Bytes) : Option (Option Bytes) :=
  (versionsOp st name).map pyMaxBytes

/-- `Chunker._resolve_recipe_obj_from_version`, merged with the caller's
tuple destructuring: `none` covers both the `ObjectNotFound` raise and the
`TypeError`/`KeyError` crashes on a `None` result or missing version. -/
def resolveRecipe (st : VState) (name version : Bytes) : Option (Bytes × Bytes) := do
  let vs ← versionsAndRecipes st name
  if vs = [] then none
  else if version = headBytes then pyMaxPair vs
  else (dictLookup vs version).map fun r => (version, r)

/-- Triple destructuring of the decoded extent values, as
`for e_offset, e_length, fp in recipe` would do element by element;
`none` models the `TypeError`/`ValueError` raises on wrong shapes. -/
def extentTriples : List MVal → Option (List Extent)
  | [] => some []
  | .arr [.uint o, .uint le, .str f] :: rest =>
      (extentTriples rest).map fun es => ⟨o, le, f⟩ :: es
  | _ => none

/-- Recover the extent triples from the decoded recipe value. -/
def extentsOfMVal : MVal → Option (List Extent)
  | .arr l => extentTriples l
  | _ => none

/-- Python prefix slice `data[:n]` for a possibly negative `n`. -/
def pySliceTo (data : Bytes) (n : Int) : Bytes :=
  if n < 0 then data.take (data.length - n.natAbs) else data.take n.toNat

/-- Phase 1 of `Chunker.read`: walk the selected extents with the running
request cursor, fetching each overlap window from CAS and recording
`(cursor, chunk[:chunk_length])`. -/
def readPhase1 (reg : Bytes → Option Compressor) (cas : CASState) :
    List Extent → Int → Int → Option (List (Int × Bytes))
  | [], _, _ => some []
  | e :: es, cur, endPos => do
      let localOff : Int := max cur (e.off : Int)
      let extentEnd : Int := (e.off : Int) + (e.len : Int)
      let chunkOff : Int := max (cur - (e.off : Int)) 0
      let chunkLen : Int := min (endPos - localOff) (extentEnd - localOff)
      let chunk ← casGet reg cas e.fp chunkOff.toNat chunkLen
      let rest ← readPhase1 reg cas es (cur + chunkLen) endPos
      some ((cur, pySliceTo chunk chunkLen) :: rest)

/-- Phase 2 of `Chunker.read`: concatenate the recorded buffers, zero-fill
before the first buffer and between consecutive buffers, and append the
final zero fill.  `none` models the `IndexError` of `bufs[0]` when no
extent was selected. -/
def readAssemble (bufs : List (Int × Bytes)) (origOffset : Int) (length : Nat)
    (endPos : Int) : Option Bytes := do
  let (firstOff, _) ← bufs.head?
  let (lastOff, lastBuf) ← bufs.getLast?
  let r0 : Bytes :=
    if origOffset < firstOff then List.replicate (firstOff - origOffset).toNat 0 else []
  let off0 : Int := if origOffset < firstOff then firstOff else origOffset
  let step := fun (acc : Bytes × Int) (pr : (Int × Bytes) × (Int × Bytes)) =>
    let cEnd : Int := pr.1.1 + pr.1.2.length
    ((acc.1 ++ pr.1.2) ++
       (if cEnd < pr.2.1 then List.replicate (pr.2.1 - cEnd).toNat 0 else []),
     acc.2 + pr.1.2.length)
  let mid := (bufs.zip bufs.tail).foldl step (r0, off0)
  let lastEnd : Int := lastOff + lastBuf.length
  let offFin : Int := mid.2 + lastBuf.length
  some (if lastEnd < endPos then
          (mid.1 ++ lastBuf) ++ List.replicate ((offFin + length) - lastEnd).toNat 0
        else mid.1 ++ lastBuf)

/-- `Chunker.read(name, length, offset, version)` (`chunk.py`): resolve the
recipe, select extents via `extents_in_range`, fetch the overlap windows,
and reassemble with zero fill.  `none` lumps together every exception the
Python raises (absent name/version, failed unpack, and the phase-2
`IndexError`). -/
def readOp (reg : Bytes → Option Compressor) (st : VState) (name : Bytes)
    (length offset : Nat) (version : Bytes) : Option Bytes := do
  let pr ← resolveRecipe st name version
  let rbytes ← casGet reg st.cas pr.2 0 (-1)
  let fpsV ← match unpackRecipe rbytes with | .ok v => some v | _ => none
  let exts ← extentsOfMVal fpsV
  let sel := getExtentsInRange exts length offset
  let lastE ← exts.getLast?
  let endPos : Int := min ((offset : Int) + (length : Int)) ((lastE.off : Int) + (lastE.len : Int))
  let bufs ← readPhase1 reg st.cas sel (offset : Int) endPos
  readAssemble bufs (offset : Int) length endPos

/-- `Chunker.remove_version(name, version)` (`chunk.py`): resolve the
version, `CAS.down` every extent fingerprint of its recipe, remove the
version key from the index omap (the index object itself is kept), and
`CAS.down` the recipe object. -/
def removeVersion (st : VState) (name version : Bytes) : Option VState := do
  let (v, rfp) ← resolveRecipe st name version
  let rbytes ← casGet compressorSelect st.cas rfp 0 (-1)
  let fpsV ← match unpackRecipe rbytes with | .ok x => some x | _ => none
  let exts ← extentsOfMVal fpsV
  let cas₁ := (exts.map Extent.fp).foldl (fun c f => (casDown c f).2) st.cas
  let idx₁ := omapRemoveKeys st.index name [v]
  some ⟨(casDown cas₁ rfp).2, idx₁⟩

/-- `Chunker.remove_all_versions(name)` (`chunk.py`): `remove_version` for
every stored version, then delete the index object itself. -/
def removeAllVersions (st : VState) (name : Bytes) : Option VState := do
  let todo ← versionsAndRecipes st name
  let st' ← todo.foldlM (fun s p => removeVersion s name p.1) st
  some ⟨st'.cas, alRemove st'.index name⟩

/-! ## Concrete states used when evaluating the code on specific inputs -/

/-- The empty system state: fresh CAS and INDEX namespaces. -/
def vInit : VState := ⟨[], []⟩

/-- A logical name used in concrete runs (`"x"`). -/
def c1name : Bytes := [120]

/-- A ten-byte file, written with chunk size 10: its recipe holds the
single extent `(0, 10, fp)`. -/
def c1file : Bytes := [10, 11, 12, 13, 14, 15, 16, 17, 18, 19]

/-- The state after `write_full` of `c1file` (clock reading 1000 ms). -/
def c1run : Option (Bytes × VState) := writeFull vInit noCompressor c1name c1file 1000 10

/-- A name used by the version-key runs (`"y"`). -/
def c6name : Bytes := [121]

/-- First `write_full` on `c6name` at clock reading 1700000000000 ms. -/
def c6run1 : Option (Bytes × VState) :=
  writeFull vInit noCompressor c6name [0] 1700000000000 4

/-- Second `write_full` on `c6name` in the same millisecond. -/
def c6run2 : Option (Bytes × VState) :=
  c6run1.bind fun p => writeFull p.2 noCompressor c6name [1] 1700000000000 4

/-! # Theorems -/

/-- C2 (code bug): `get_extents_in_range` does not return exactly the
extents overlapping the half-open range `[offset, offset+length)`.  The
single extent `(0, 10, fp)` overlaps the requested range `[4, 6)` but the
function returns nothing (its condition only looks at whether an extent's
start or end falls inside the closed request interval, so an extent
strictly containing the range is missed); conversely for the request
`[10, 15)` it returns the extent although the overlap is empty.  Its own
docstring says it is meant to "find overlapping extents". -/
theorem C2_extents_in_range_wrong_on_containing_and_touching :
    getExtentsInRange [⟨0, 10, [0]⟩] 2 4 = [] ∧ specOverlaps ⟨0, 10, [0]⟩ 4 2 ∧
    getExtentsInRange [⟨0, 10, [0]⟩] 5 10 = [⟨0, 10, [0]⟩] ∧
    ¬ specOverlaps ⟨0, 10, [0]⟩ 10 5 := by decide

set_option maxRecDepth 200000 in
/-- C1 (code bug): after `write_full` of a ten-byte file (one extent
`(0, 10, fp)`), `Chunker.read(name, length=2, offset=4, version)` raises
`IndexError` (modelled as `none`) instead of returning the two bytes at
offset 4: `extents_in_range` misses the extent containing the range, so
phase 2 indexes `bufs[0]` of an empty list.  The claimed result length
would be `min(2, 10 - 4) = 2`. -/
theorem C1_read_inside_single_chunk_raises :
    (c1run.bind fun p => readOp compressorSelect p.2 c1name 2 4 p.1) = none ∧
    c1run.isSome = true := by decide

/-- C5: `CAS.put` fingerprints the uncompressed input: the returned
fingerprint is `fingerprint(data)` of the put bytes themselves, so
byte-identical buffers give the identical fingerprint on every call,
whatever compression policy (and prior store state) each call uses. -/
theorem C5_put_returns_fingerprint_of_uncompressed_input
    (st st' : CASState) (c c' : Compressor) (x : Bytes) :
    (casPut st c x).1 = (fingerprint x).2 ∧ (casPut st c x).1 = (casPut st' c' x).1 := by
  constructor <;> rfl

/-- C8: `CAS.up` and `CAS.down` always return a boolean — `true` exactly
when the backend reports status 0 (the object exists), `false` (not a
raised exception) when the backend rejects the call because the object is
absent (which also covers decrementing below zero, since the backend
deletes objects at refcount zero). -/
theorem C8_up_down_return_booleans (st : CASState) (fp : Bytes) :
    ∃ b b', (casUp st fp).1 = some b ∧ (casDown st fp).1 = some b' ∧
      (b = true ↔ (alLookup st fp).isSome = true) ∧
      (b' = true ↔ (alLookup st fp).isSome = true) := by
  cases h : alLookup st fp with
  | none => exact ⟨false, false, by simp [casUp, casDown, backendUp, backendDown, h]⟩
  | some obj =>
    refine ⟨true, true, ?_⟩
    by_cases hrc : obj.rc ≤ 1 <;>
      simp [casUp, casDown, backendUp, backendDown, h, hrc]

/-- C10: `CAS.get(fp, off, size)` on a stored object whose metadata selects
a registered decompressor returns exactly the Python slice
`decompressed[off:off+size]` — `size < 0` (the default `-1`) stands for the
whole decompressed length — and in particular the empty byte string, not a
failure, whenever `off` is at or past the decompressed length. -/
theorem C10_get_slices_decompressed_object
    (reg : Bytes → Option Compressor) (st : CASState) (fp : Bytes)
    (off : Nat) (size : Int) (obj : CASObj) (c : Compressor)
    (h1 : alLookup st fp = some obj) (h2 : reg obj.compression = some c) :
    casGet reg st fp off size =
      some (((c.decomp obj.data).drop off).take
        (if size < 0 then (c.decomp obj.data).length else size.toNat)) ∧
    ((c.decomp obj.data).length ≤ off → casGet reg st fp off size = some []) := by
  constructor
  · simp [casGet, h1, h2]
  · intro hoff
    simp [casGet, h1, h2, List.drop_eq_nil_of_le hoff]

/-- C10 witness: a one-object store holding `[5, 6, 7]` uncompressed;
`get` with `off = 1, size = -1` returns `[6, 7]`, and any `off ≥ 3` gives
the empty result. -/
theorem C10_witness :
    casGet compressorSelect [([1], ⟨1, [5, 6, 7], noIdent⟩)] [1] 1 (-1) =
      some ((((noCompressor.decomp [5, 6, 7]).drop 1)).take
        (if (-1 : Int) < 0 then (noCompressor.decomp [5, 6, 7]).length else (-1 : Int).toNat)) ∧
    casGet compressorSelect [([1], ⟨1, [5, 6, 7], noIdent⟩)] [1] 7 (-1) = some [] := by
  have h := C10_get_slices_decompressed_object compressorSelect
    [([1], ⟨1, [5, 6, 7], noIdent⟩)] [1] 7 (-1) ⟨1, [5, 6, 7], noIdent⟩ noCompressor
    (by decide) (by simp [compressorSelect])
  refine ⟨?_, h.2 (by decide)⟩
  exact (C10_get_slices_decompressed_object compressorSelect
    [([1], ⟨1, [5, 6, 7], noIdent⟩)] [1] 1 (-1) ⟨1, [5, 6, 7], noIdent⟩ noCompressor
    (by decide) (by simp [compressorSelect])).1

/-- C4: `_write_chunks` over any finite chunk sequence whose chunks
materialize with their declared sizes succeeds and returns one extent per
input chunk, in input (offset) order: the i-th extent is the i-th chunk's
`(offset, size)` paired with the fingerprint `CAS.put` computes for that
chunk's bytes. -/
theorem C4_write_chunks_in_input_order (st : CASState) (c : Compressor)
    (chunks : List (Nat × Nat × Bytes))
    (h : ∀ x ∈ chunks, x.2.2.length = x.2.1) :
    ∃ st', writeChunks st c chunks =
      some (chunks.map fun x => ⟨x.1, x.2.1, (fingerprint x.2.2).2⟩, st') := by
  induction chunks generalizing st with
  | nil => exact ⟨st, rfl⟩
  | cons hd tl ih =>
    obtain ⟨st', hst⟩ := ih ((casPut st c hd.2.2).2) fun x hx => h x (List.mem_cons_of_mem _ hx)
    refine ⟨st', ?_⟩
    have hlen : hd.2.2.length = hd.2.1 := h hd (List.mem_cons_self _ _)
    obtain ⟨o, s, b⟩ := hd
    simp only [writeChunks, List.map_cons]
    simp only at hlen
    rw [if_pos hlen]
    simp [casPut] at hst ⊢
    rw [hst]

/-- C4 witness: two chunks of declared sizes 2 and 1. -/
theorem C4_witness :
    ∃ st', writeChunks [] noCompressor [(0, 2, [5, 6]), (2, 1, [7])] =
      some ([(0, 2, [5, 6]), (2, 1, [7])].map fun x =>
        ⟨x.1, x.2.1, (fingerprint x.2.2).2⟩, st') :=
  C4_write_chunks_in_input_order [] noCompressor [(0, 2, [5, 6]), (2, 1, [7])] (by decide)

/-- Reading back `k` big-endian bytes of `n < 256^k` recovers `n`. -/
theorem readBE_beBytes : ∀ (k n : Nat) (rest : Bytes), n < 256 ^ k →
    readBE k (beBytes k n ++ rest) = some (n, rest) := by
  intro k
  induction k with
  | zero =>
    intro n rest h
    interval_cases n
    rfl
  | succ k ih =>
    intro n rest h
    have hm : n % 256 ^ k < 256 ^ k := Nat.mod_lt _ (Nat.pos_pow_of_pos k (by norm_num))
    have hs : beBytes (k + 1) n ++ rest = (n / 256 ^ k) :: (beBytes k (n % 256 ^ k) ++ rest) := by
      simp [beBytes]
    have hval : n / 256 ^ k * 256 ^ k + n % 256 ^ k = n := by
      rw [Nat.mul_comm]; exact Nat.div_add_mod n (256 ^ k)
    rw [hs]
    simp only [readBE, ih (n % 256 ^ k) rest hm]
    simp [hval]

/-- Splitting off exactly the length of a known prefix returns that prefix. -/
theorem takeExactly_append : ∀ (s rest : Bytes), takeExactly s.length (s ++ rest) = some (s, rest) := by
  intro s
  induction s with
  | nil => intro rest; rfl
  | cons b s ih => intro rest; simp [takeExactly, ih rest]

/-- Head dispatch after an encoded unsigned integer. -/
theorem decodeHead_encUint {m : Nat} {bs : Bytes} (henc : encUint m = some bs)
    (rest : Bytes) : decodeHead (bs ++ rest) = .prim (.uint m) rest := by
  rw [encUint] at henc
  split_ifs at henc with h1 h2 h3 h4 h5 <;> cases henc
  · simp [decodeHead, decodeHeadB, h1]
  · simp [decodeHead, decodeHeadB]
  · simp [decodeHead, decodeHeadB, readBE_beBytes 2 m rest (by omega)]
  · simp [decodeHead, decodeHeadB, readBE_beBytes 4 m rest (by omega)]
  · simp [decodeHead, decodeHeadB, readBE_beBytes 8 m rest (by omega)]

/-- Head dispatch after an encoded byte string. -/
theorem decodeHead_encStr {s : Bytes} {bs : Bytes} (henc : encStr s = some bs)
    (rest : Bytes) : decodeHead (bs ++ rest) = .prim (.str s) rest := by
  rw [encStr] at henc
  split_ifs at henc with h1 h2 h3 <;> cases henc
  · have c1 : ¬(0xa0 + s.length < 0x80) := by omega
    have c2 : ¬(0x90 ≤ 0xa0 + s.length ∧ 0xa0 + s.length < 0xa0) := by omega
    have c3 : 0xa0 ≤ 0xa0 + s.length ∧ 0xa0 + s.length < 0xc0 := by omega
    have c4 : 0xa0 + s.length - 0xa0 = s.length := by omega
    simp [decodeHead, decodeHeadB, c1, c2, c3, c4, takeExactly_append]
  · simp [decodeHead, decodeHeadB, List.append_assoc,
      readBE_beBytes 2 s.length (s ++ rest) (by omega), takeExactly_append]
  · simp [decodeHead, decodeHeadB, List.append_assoc,
      readBE_beBytes 4 s.length (s ++ rest) (by omega), takeExactly_append]

/-- Head dispatch after an encoded array header. -/
theorem decodeHead_arrTag {n : Nat} {bs : Bytes} (henc : encArrTag n = some bs)
    (rest : Bytes) : decodeHead (bs ++ rest) = .arrHdr n rest := by
  rw [encArrTag] at henc
  split_ifs at henc with h1 h2 h3 <;> cases henc
  · have c1 : ¬(0x90 + n < 0x80) := by omega
    have c2 : 0x90 ≤ 0x90 + n ∧ 0x90 + n < 0xa0 := by omega
    have c4 : 0x90 + n - 0x90 = n := by omega
    simp [decodeHead, decodeHeadB, c1, c2, c4]
  · simp [decodeHead, decodeHeadB, readBE_beBytes 2 n rest (by omega)]
  · simp [decodeHead, decodeHeadB, readBE_beBytes 4 n rest (by omega)]

/-- The one-step unfolding of `decodeN` at successor fuel and count. -/
theorem decodeN_step (f count : Nat) (bs : Bytes) :
    decodeN (f + 1) (count + 1) bs =
      match decodeHead bs with
      | .prim v rest => (decodeN f count rest).map fun p => (v :: p.1, p.2)
      | .arrHdr n rest =>
        match decodeN f n rest with
        | none => none
        | some (vs, r) => (decodeN f count r).map fun p => (.arr vs :: p.1, p.2)
      | .fail => none := rfl

/-- Decoding zero values succeeds immediately given any fuel. -/
theorem decodeN_zeroAny {f : Nat} (hf : 1 ≤ f) (bs : Bytes) :
    decodeN f 0 bs = some ([], bs) := by
  cases f with
  | zero => omega
  | succ f => rfl

/-- Consume an encoded unsigned integer, then continue. -/
theorem decodeN_encUint {m : Nat} {bs : Bytes} (henc : encUint m = some bs)
    (f count : Nat) (rest : Bytes) :
    decodeN (f + 1) (count + 1) (bs ++ rest) =
      (decodeN f count rest).map fun p => (.uint m :: p.1, p.2) := by
  rw [decodeN_step, decodeHead_encUint henc]

/-- Consume an encoded byte string, then continue. -/
theorem decodeN_encStr {s : Bytes} {bs : Bytes} (henc : encStr s = some bs)
    (f count : Nat) (rest : Bytes) :
    decodeN (f + 1) (count + 1) (bs ++ rest) =
      (decodeN f count rest).map fun p => (.str s :: p.1, p.2) := by
  rw [decodeN_step, decodeHead_encStr henc]

/-- Consume an encoded array header, decode its elements, then continue. -/
theorem decodeN_arrTag {n : Nat} {bs : Bytes} (henc : encArrTag n = some bs)
    (f count : Nat) (rest : Bytes) :
    decodeN (f + 1) (count + 1) (bs ++ rest) =
      match decodeN f n rest with
      | none => none
      | some (vs, r) => (decodeN f count r).map fun p => (.arr vs :: p.1, p.2) := by
  rw [decodeN_step, decodeHead_arrTag henc]

/-- Consume a packed extent (fixarray of offset, length, fingerprint) given
at least four fuel levels for its nesting, then continue. -/
theorem decodeN_packExtent {e : Extent} {bs : Bytes} (henc : packExtent e = some bs)
    {f : Nat} (hf : 4 ≤ f) (count : Nat) (rest : Bytes) :
    decodeN (f + 1) (count + 1) (bs ++ rest) =
      (decodeN f count rest).map fun p => (e.toMVal :: p.1, p.2) := by
  obtain ⟨o, ho⟩ : ∃ o, encUint e.off = some o := by
    cases h : encUint e.off
    · rw [packExtent, h] at henc; simp at henc
    · exact ⟨_, rfl⟩
  obtain ⟨l, hl⟩ : ∃ l, encUint e.len = some l := by
    cases h : encUint e.len
    · rw [packExtent, ho, h] at henc; simp at henc
    · exact ⟨_, rfl⟩
  obtain ⟨fb, hfb⟩ : ∃ fb, encStr e.fp = some fb := by
    cases h : encStr e.fp
    · rw [packExtent, ho, hl, h] at henc; simp at henc
    · exact ⟨_, rfl⟩
  rw [packExtent, ho, hl, hfb] at henc
  simp only [Option.bind_eq_bind, Option.some_bind, Option.some.injEq] at henc
  obtain ⟨g, rfl⟩ : ∃ g, f = g + 4 := ⟨f - 4, by omega⟩
  subst henc
  have e3 : encArrTag 3 = some [0x93] := by decide
  have shape : (0x93 :: (o ++ l ++ fb)) ++ rest =
      [0x93] ++ (o ++ (l ++ (fb ++ rest))) := by simp
  rw [shape]
  have h1 := decodeN_arrTag e3 (g + 4) count (o ++ (l ++ (fb ++ rest)))
  rw [h1]
  have h2 := decodeN_encUint ho (g + 3) 2 (l ++ (fb ++ rest))
  have h3 := decodeN_encUint hl (g + 2) 1 (fb ++ rest)
  have h4 := decodeN_encStr hfb (g + 1) 0 rest
  have h5 : decodeN (g + 1) 0 rest = some ([], rest) := decodeN_zeroAny (by omega) rest
  have hinner : decodeN (g + 4) 3 (o ++ (l ++ (fb ++ rest))) =
      some ([.uint e.off, .uint e.len, .str e.fp], rest) := by
    rw [show ((3 : Nat) = 2 + 1) from rfl, show ((g + 4) = (g + 3) + 1) from rfl, h2,
      show ((2 : Nat) = 1 + 1) from rfl, show ((g + 3) = (g + 2) + 1) from rfl, h3,
      show ((1 : Nat) = 0 + 1) from rfl, show ((g + 2) = (g + 1) + 1) from rfl, h4, h5]
    rfl
  rw [hinner]
  rfl

/-- Decode a whole packed extent list, fuel at least its length plus four. -/
theorem decodeN_extList : ∀ (E : List Extent) (bss : List Bytes),
    E.mapM packExtent = some bss → ∀ (f : Nat), E.length + 4 ≤ f → ∀ (rest : Bytes),
    decodeN f E.length (bss.flatten ++ rest) = some (E.map Extent.toMVal, rest) := by
  intro E
  induction E with
  | nil =>
    intro bss hm f hf rest
    simp only [List.mapM_nil, pure, Option.some.injEq] at hm
    subst hm
    simpa using decodeN_zeroAny (by omega) rest
  | cons e E ih =>
    intro bss hm f hf rest
    rw [List.mapM_cons] at hm
    obtain ⟨b, hb⟩ : ∃ b, packExtent e = some b := by
      cases h : packExtent e
      · rw [h] at hm; simp at hm
      · exact ⟨_, rfl⟩
    obtain ⟨bs', hbs'⟩ : ∃ bs', E.mapM packExtent = some bs' := by
      cases h : E.mapM packExtent
      · rw [hb, h] at hm; simp at hm
      · exact ⟨_, rfl⟩
    rw [hb, hbs'] at hm
    simp only [Option.bind_eq_bind, Option.some_bind, pure, Option.some.injEq] at hm
    subst hm
    obtain ⟨g, rfl⟩ : ∃ g, f = g + 1 := ⟨f - 1, by omega⟩
    simp only [List.length_cons, List.flatten_cons, List.map_cons, List.append_assoc]
    rw [decodeN_packExtent hb (by simp at hf; omega), ih bs' hbs' g (by simp at hf; omega)]
    rfl

/-- The byte shape of a successfully packed extent. -/
theorem packExtent_shape {e : Extent} {bs : Bytes} (henc : packExtent e = some bs) :
    ∃ o l fb, encUint e.off = some o ∧ encUint e.len = some l ∧ encStr e.fp = some fb ∧
      bs = 0x93 :: (o ++ l ++ fb) := by
  obtain ⟨o, ho⟩ : ∃ o, encUint e.off = some o := by
    cases h : encUint e.off
    · rw [packExtent, h] at henc; simp at henc
    · exact ⟨_, rfl⟩
  obtain ⟨l, hl⟩ : ∃ l, encUint e.len = some l := by
    cases h : encUint e.len
    · rw [packExtent, ho, h] at henc; simp at henc
    · exact ⟨_, rfl⟩
  obtain ⟨fb, hfb⟩ : ∃ fb, encStr e.fp = some fb := by
    cases h : encStr e.fp
    · rw [packExtent, ho, hl, h] at henc; simp at henc
    · exact ⟨_, rfl⟩
  rw [packExtent, ho, hl, hfb] at henc
  simp only [Option.bind_eq_bind, Option.some_bind, Option.some.injEq] at henc
  exact ⟨o, l, fb, ho, hl, hfb, henc.symm⟩

/-- Each packed extent contributes at least one byte. -/
theorem flatten_length_ge : ∀ (E : List Extent) (bss : List Bytes),
    E.mapM packExtent = some bss → E.length ≤ bss.flatten.length := by
  intro E
  induction E with
  | nil => intro bss hm; simp
  | cons e E ih =>
    intro bss hm
    rw [List.mapM_cons] at hm
    obtain ⟨b, hb⟩ : ∃ b, packExtent e = some b := by
      cases h : packExtent e
      · rw [h] at hm; simp at hm
      · exact ⟨_, rfl⟩
    obtain ⟨bs', hbs'⟩ : ∃ bs', E.mapM packExtent = some bs' := by
      cases h : E.mapM packExtent
      · rw [hb, h] at hm; simp at hm
      · exact ⟨_, rfl⟩
    rw [hb, hbs'] at hm
    simp only [Option.bind_eq_bind, Option.some_bind, pure, Option.some.injEq] at hm
    subst hm
    obtain ⟨o, l, fb, -, -, -, hsh⟩ := packExtent_shape hb
    subst hsh
    have := ih bs' hbs'
    simp only [List.length_cons, List.flatten_cons, List.length_append, List.length_cons]
    omega

/-- The byte shape of a successfully packed recipe. -/
theorem packRecipeV_shape {ver : Nat} {E : List Extent} {bs : Bytes}
    (h : packRecipeV ver E = some bs) :
    ∃ hv tag body, encUint ver = some hv ∧ encArrTag E.length = some tag ∧
      E.mapM packExtent = some body ∧
      bs = 0x92 :: ((0x91 :: hv) ++ (tag ++ body.flatten)) := by
  obtain ⟨hv, hhv⟩ : ∃ hv, encUint ver = some hv := by
    cases hx : encUint ver
    · rw [packRecipeV, hx] at h; simp at h
    · exact ⟨_, rfl⟩
  obtain ⟨tag, htag⟩ : ∃ tag, encArrTag E.length = some tag := by
    cases hx : encArrTag E.length
    · rw [packRecipeV, hhv, hx] at h; simp at h
    · exact ⟨_, rfl⟩
  obtain ⟨body, hbody⟩ : ∃ body, E.mapM packExtent = some body := by
    cases hx : E.mapM packExtent
    · rw [packRecipeV, hhv, htag, hx] at h; simp at h
    · exact ⟨_, rfl⟩
  rw [packRecipeV, hhv, htag, hbody] at h
  simp only [Option.bind_eq_bind, Option.some_bind, Option.some.injEq] at h
  exact ⟨hv, tag, body, hhv, htag, hbody, h.symm⟩

/-- Decoding a packed recipe (with any trailing bytes) succeeds and stops
exactly at the trailing bytes, given fuel at least the extent count plus 8. -/
theorem decodeN_packRecipeV {ver : Nat} {E : List Extent} {bs : Bytes}
    (h : packRecipeV ver E = some bs) {f : Nat} (hf : E.length + 8 ≤ f) (junk : Bytes) :
    decodeN f 1 (bs ++ junk) =
      some ([.arr [.arr [.uint ver], .arr (E.map Extent.toMVal)]], junk) := by
  obtain ⟨hv, tag, body, hhv, htag, hbody, hsh⟩ := packRecipeV_shape h
  subst hsh
  obtain ⟨c, rfl⟩ : ∃ c, f = c + 3 := ⟨f - 3, by omega⟩
  have hc : E.length + 4 ≤ c := by omega
  have e2 : encArrTag 2 = some [0x92] := by decide
  have e1 : encArrTag 1 = some [0x91] := by decide
  have shape : (0x92 :: ((0x91 :: hv) ++ (tag ++ body.flatten))) ++ junk =
      [0x92] ++ ([0x91] ++ (hv ++ (tag ++ (body.flatten ++ junk)))) := by simp
  rw [shape]
  have Hb : decodeN (c + 1) 1 (hv ++ (tag ++ (body.flatten ++ junk))) =
      some ([.uint ver], tag ++ (body.flatten ++ junk)) := by
    have h1 : decodeN (c + 1) 1 (hv ++ (tag ++ (body.flatten ++ junk))) =
        (decodeN c 0 (tag ++ (body.flatten ++ junk))).map fun p => (.uint ver :: p.1, p.2) :=
      decodeN_encUint hhv c 0 _
    rw [h1, decodeN_zeroAny (show 1 ≤ c by omega)]
    rfl
  have Hc : decodeN (c + 1) 1 (tag ++ (body.flatten ++ junk)) =
      some ([.arr (E.map Extent.toMVal)], junk) := by
    have h1 : decodeN (c + 1) 1 (tag ++ (body.flatten ++ junk)) =
        match decodeN c E.length (body.flatten ++ junk) with
        | none => none
        | some (vs, r) => (decodeN c 0 r).map fun p => (.arr vs :: p.1, p.2) :=
      decodeN_arrTag htag c 0 _
    rw [h1, decodeN_extList E body hbody c hc junk]
    simp [decodeN_zeroAny (show 1 ≤ c by omega)]
  have H2 : decodeN (c + 2) 2 ([0x91] ++ (hv ++ (tag ++ (body.flatten ++ junk)))) =
      some ([.arr [.uint ver], .arr (E.map Extent.toMVal)], junk) := by
    have h1 : decodeN (c + 2) 2 ([0x91] ++ (hv ++ (tag ++ (body.flatten ++ junk)))) =
        match decodeN (c + 1) 1 (hv ++ (tag ++ (body.flatten ++ junk))) with
        | none => none
        | some (vs, r) => (decodeN (c + 1) 1 r).map fun p => (.arr vs :: p.1, p.2) :=
      decodeN_arrTag e1 (c + 1) 1 _
    rw [h1, Hb]
    simp [Hc]
  have H1 : decodeN (c + 3) 1 ([0x92] ++ ([0x91] ++ (hv ++ (tag ++ (body.flatten ++ junk))))) =
      match decodeN (c + 2) 2 ([0x91] ++ (hv ++ (tag ++ (body.flatten ++ junk)))) with
      | none => none
      | some (vs, r) => (decodeN (c + 2) 0 r).map fun p => (.arr vs :: p.1, p.2) :=
    decodeN_arrTag e2 (c + 2) 0 _
  rw [H1, H2]
  simp [decodeN_zeroAny (show 1 ≤ c + 2 by omega)]

/-- What `SimpleRecipe.unpack` does on a packed recipe followed by any
trailing bytes: trailing bytes give the `ExtraData` result, a nonzero
header version is rejected, and otherwise the decoded extent tuples come
back. -/
theorem unpack_packV {ver : Nat} {E : List Extent} {bs : Bytes}
    (h : packRecipeV ver E = some bs) (junk : Bytes) :
    unpackRecipe (bs ++ junk) =
      if junk = [] then
        (if ver = 0 then .ok (.arr (E.map Extent.toMVal)) else .badVersion)
      else .extraData := by
  obtain ⟨hv, tag, body, hhv, htag, hbody, hsh⟩ := packRecipeV_shape h
  have hlen : E.length ≤ bs.length := by
    have h1 := flatten_length_ge E body hbody
    rw [hsh]
    simp only [List.length_cons, List.length_append]
    omega
  have hf : E.length + 8 ≤ 2 * (bs ++ junk).length + 9 := by
    simp only [List.length_append]
    omega
  have hdec := decodeN_packRecipeV h hf junk
  rw [unpackRecipe, msgUnpackb, hdec]
  cases junk with
  | cons j js => rfl
  | nil =>
    cases ver with
    | zero => rfl
    | succ v => rfl

/-- Successful integer encoding below `2^64`. -/
theorem encUint_total {n : Nat} (h : n < 2 ^ 64) : ∃ bs, encUint n = some bs := by
  rw [encUint]
  split_ifs <;> first | exact ⟨_, rfl⟩ | omega

/-- Successful byte-string encoding below `2^32` length. -/
theorem encStr_total {s : Bytes} (h : s.length < 2 ^ 32) : ∃ bs, encStr s = some bs := by
  rw [encStr]
  split_ifs <;> first | exact ⟨_, rfl⟩ | omega

/-- Successful array-header encoding below `2^32` elements. -/
theorem encArrTag_total {n : Nat} (h : n < 2 ^ 32) : ∃ bs, encArrTag n = some bs := by
  rw [encArrTag]
  split_ifs <;> first | exact ⟨_, rfl⟩ | omega

/-- Packing succeeds for extents within the u64/u32 bounds of the format. -/
theorem packRecipeV_total (ver : Nat) (E : List Extent) (hver : ver < 2 ^ 64)
    (hwf : ∀ e ∈ E, e.off < 2 ^ 64 ∧ e.len < 2 ^ 64 ∧ e.fp.length < 2 ^ 32)
    (hn : E.length < 2 ^ 32) : ∃ bs, packRecipeV ver E = some bs := by
  obtain ⟨hv, hhv⟩ := encUint_total hver
  obtain ⟨tag, htag⟩ := encArrTag_total hn
  obtain ⟨body, hbody⟩ : ∃ body, E.mapM packExtent = some body := by
    clear htag hn
    induction E with
    | nil => exact ⟨[], rfl⟩
    | cons e E ih =>
      obtain ⟨b, hb⟩ : ∃ b, packExtent e = some b := by
        obtain ⟨h1, h2, h3⟩ := hwf e (List.mem_cons_self _ _)
        obtain ⟨o, ho⟩ := encUint_total h1
        obtain ⟨l, hl⟩ := encUint_total h2
        obtain ⟨fb, hfb⟩ := encStr_total h3
        exact ⟨0x93 :: (o ++ l ++ fb), by rw [packExtent, ho, hl, hfb]; rfl⟩
      obtain ⟨bs', hbs'⟩ := ih fun e he => hwf e (List.mem_cons_of_mem _ he)
      exact ⟨b :: bs', by rw [List.mapM_cons, hb, hbs']; rfl⟩
  exact ⟨0x92 :: ((0x91 :: hv) ++ (tag ++ body.flatten)),
    by rw [packRecipeV, hhv, htag, hbody]; rfl⟩

/-- C3: the recipe codec round-trips every extent list (empty included)
whose fields fit the wire format's fixed widths (offset and length in u64,
fingerprint and extent count below 2^32, as the data model prescribes):
packing succeeds, unpacking the packed bytes succeeds with the same extent
tuples in the same order, and the decoding determines the extent list
uniquely. -/
theorem C3_recipe_pack_unpack_roundtrip (E : List Extent)
    (hwf : ∀ e ∈ E, e.off < 2 ^ 64 ∧ e.len < 2 ^ 64 ∧ e.fp.length < 2 ^ 32)
    (hn : E.length < 2 ^ 32) :
    ∃ bs, packRecipe E = some bs ∧
      unpackRecipe bs = .ok (.arr (E.map Extent.toMVal)) ∧
      ∀ E' : List Extent, E'.map Extent.toMVal = E.map Extent.toMVal → E' = E := by
  obtain ⟨bs, hbs⟩ := packRecipeV_total 0 E (by norm_num) hwf hn
  refine ⟨bs, hbs, ?_, ?_⟩
  · have h := unpack_packV hbs []
    rw [List.append_nil] at h
    simpa using h
  · intro E' hE'
    have hinj : Function.Injective Extent.toMVal := by
      intro a b hab
      obtain ⟨ao, al, af⟩ := a
      obtain ⟨bo, bl, bf⟩ := b
      simp only [Extent.toMVal, MVal.arr.injEq, List.cons.injEq, MVal.uint.injEq,
        MVal.str.injEq, and_true] at hab
      simp_all
    exact List.map_injective_iff.mpr hinj hE'

/-- C3 witness: a one-extent recipe round-trips. -/
theorem C3_witness :
    ∃ bs, packRecipe [⟨0, 3, [97, 98]⟩] = some bs ∧
      unpackRecipe bs = .ok (.arr ([⟨0, 3, [97, 98]⟩].map Extent.toMVal)) ∧
      ∀ E' : List Extent, E'.map Extent.toMVal = [⟨0, 3, [97, 98]⟩].map Extent.toMVal →
        E' = [⟨0, 3, [97, 98]⟩] :=
  C3_recipe_pack_unpack_roundtrip [⟨0, 3, [97, 98]⟩] (by decide) (by decide)

/-- C9: `SimpleRecipe.unpack` fails rather than silently truncating — when
msgpack decodes the declared structure and trailing bytes remain, the
result is the `ExtraData` failure (the logged decode error returning
`None`); in particular a packed recipe followed by any nonempty junk gives
that failure; and a packed recipe whose header carries a version tag other
than 0 is rejected with the `RuntimeError("Unsupported version")`. -/
theorem C9_unpack_rejects_trailing_and_bad_version :
    (∀ (data : Bytes) (v : MVal) (rest : Bytes),
      msgUnpackb data = some (v, rest) → rest ≠ [] → unpackRecipe data = .extraData) ∧
    (∀ (E : List Extent) (junk bs : Bytes), junk ≠ [] → packRecipe E = some bs →
      unpackRecipe (bs ++ junk) = .extraData) ∧
    (∀ (ver : Nat) (E : List Extent) (bs : Bytes), ver ≠ 0 →
      packRecipeV ver E = some bs → unpackRecipe bs = .badVersion) := by
  refine ⟨?_, ?_, ?_⟩
  · intro data v rest hdec hne
    cases rest with
    | nil => exact absurd rfl hne
    | cons r rs => rw [unpackRecipe, hdec]
  · intro E junk bs hne hpack
    rw [unpack_packV hpack junk, if_neg hne]
  · intro ver E bs hver hpack
    have h := unpack_packV hpack []
    rw [List.append_nil] at h
    rw [h, if_pos rfl, if_neg hver]

/-- C9 witness: a decoded empty array with a trailing byte, a packed empty
recipe with one junk byte appended, and a version-1 recipe. -/
theorem C9_witness :
    unpackRecipe [0x90, 7] = .extraData ∧
    unpackRecipe ([0x92, 0x91, 0x00, 0x90] ++ [0]) = .extraData ∧
    unpackRecipe [0x92, 0x91, 0x01, 0x90] = .badVersion :=
  ⟨C9_unpack_rejects_trailing_and_bad_version.1 [0x90, 7] (.arr []) [7] (by rfl) (by decide),
   C9_unpack_rejects_trailing_and_bad_version.2.1 [] [0] [0x92, 0x91, 0x00, 0x90]
     (by decide) (by rfl),
   C9_unpack_rejects_trailing_and_bad_version.2.2 1 [] [0x92, 0x91, 0x01, 0x90]
     (by decide) (by rfl)⟩

/-- Lexicographic byte comparison is irreflexive. -/
theorem bytesLt_irrefl : ∀ a : Bytes, bytesLt a a = false := by
  intro a
  induction a with
  | nil => rfl
  | cons x xs ih => simp [bytesLt, ih]

/-- Lexicographic byte comparison never holds in both directions. -/
theorem bytesLt_asymm : ∀ a b : Bytes, bytesLt a b = true → bytesLt b a = false := by
  intro a
  induction a with
  | nil => intro b h; cases b <;> simp_all [bytesLt]
  | cons x xs ih =>
    intro b h
    cases b with
    | nil => simp_all [bytesLt]
    | cons y ys =>
      simp only [bytesLt, Bool.or_eq_true, Bool.and_eq_true, beq_iff_eq,
        decide_eq_true_eq] at h
      simp only [bytesLt, Bool.or_eq_false_iff, Bool.and_eq_false_iff]
      rcases h with h | ⟨rfl, h⟩
      · exact ⟨decide_eq_false_iff_not.mpr (by omega),
          Or.inl (by simp only [beq_eq_false_iff_ne, ne_eq]; omega)⟩
      · exact ⟨decide_eq_false_iff_not.mpr (by omega), Or.inr (ih ys h)⟩

/-- Lexicographic byte comparison is transitive. -/
theorem bytesLt_trans : ∀ a b c : Bytes, bytesLt a b = true → bytesLt b c = true →
    bytesLt a c = true := by
  intro a
  induction a with
  | nil =>
    intro b c h1 h2
    cases b <;> cases c <;> simp_all [bytesLt]
  | cons x xs ih =>
    intro b c h1 h2
    cases b with
    | nil => simp_all [bytesLt]
    | cons y ys =>
      cases c with
      | nil => simp_all [bytesLt]
      | cons z zs =>
        simp only [bytesLt, Bool.or_eq_true, Bool.and_eq_true, beq_iff_eq,
          decide_eq_true_eq] at h1 h2 ⊢
        rcases h1 with h1 | ⟨rfl, h1⟩ <;> rcases h2 with h2 | ⟨rfl, h2⟩
        · left; omega
        · left; omega
        · left; omega
        · exact Or.inr ⟨rfl, ih ys zs h1 h2⟩

/-- Strictly smaller byte strings are distinct. -/
theorem bytesLt_ne {a b : Bytes} (h : bytesLt a b = true) : a ≠ b := by
  intro he
  subst he
  have h2 := bytesLt_irrefl a
  rw [h2] at h
  exact Bool.false_ne_true h

/-- The head of a strictly increasing chain is below every later element. -/
theorem bytesLt_chain_head : ∀ (l : List Bytes) (x : Bytes),
    List.Chain' (fun a b => bytesLt a b = true) (x :: l) →
    ∀ y ∈ l, bytesLt x y = true := by
  intro l
  induction l with
  | nil => intro x _ y hy; cases hy
  | cons z zs ih =>
    intro x hch y hy
    have hxz : bytesLt x z = true := List.chain'_cons.mp hch |>.1
    rcases List.mem_cons.mp hy with rfl | hy
    · exact hxz
    · exact bytesLt_trans x z y hxz (ih z (List.chain'_cons.mp hch).2 y hy)

/-- A strictly increasing chain is strictly increasing pairwise. -/
theorem bytesLt_chain_pairwise : ∀ l : List Bytes,
    List.Chain' (fun a b => bytesLt a b = true) l →
    List.Pairwise (fun a b => bytesLt a b = true) l := by
  intro l
  induction l with
  | nil => intro _; exact List.Pairwise.nil
  | cons x xs ih =>
    intro hch
    rcases xs with _ | ⟨z, zs⟩
    · exact List.pairwise_singleton _ _
    · exact List.Pairwise.cons (bytesLt_chain_head _ x hch)
        (ih (List.chain'_cons.mp hch).2)

/-- Python `max` of a strictly increasing nonempty list is its last element. -/
theorem pyMaxBytes_chain : ∀ (l : List Bytes),
    List.Chain' (fun a b => bytesLt a b = true) l →
    pyMaxBytes l = l.getLast? := by
  intro l
  cases l with
  | nil => intro _; rfl
  | cons x xs =>
    intro hch
    rw [pyMaxBytes]
    induction xs generalizing x with
    | nil => rfl
    | cons y ys ih =>
      have hxy : bytesLt x y = true := (List.chain'_cons.mp hch).1
      have step : List.foldl (fun cur z => if bytesLt cur z = true then z else cur) x (y :: ys) =
          List.foldl (fun cur z => if bytesLt cur z = true then z else cur) y ys := by
        simp [hxy]
      rw [step, ih y (List.chain'_cons.mp hch).2]
      rw [List.getLast?_cons_cons]

/-- Inserting a key above every existing key appends it to a sorted omap. -/
theorem omapInsert_append : ∀ (m : List (Bytes × Bytes)) (key v : Bytes),
    (∀ k ∈ m.map Prod.fst, bytesLt k key = true) →
    omapInsert m key v = m ++ [(key, v)] := by
  intro m
  induction m with
  | nil => intro key v _; rfl
  | cons p rest ih =>
    intro key v h
    have hk : bytesLt p.1 key = true := h p.1 (by simp)
    obtain ⟨k, w⟩ := p
    rw [omapInsert]
    rw [if_neg (Ne.symm (bytesLt_ne hk)), if_neg (by simp [bytesLt_asymm _ _ hk])]
    rw [ih key v fun k' hk' => h k' (by simp [hk'])]
    rfl

/-- Looking up a key just inserted into an association list. -/
theorem alLookup_alInsert_self {α : Type} : ∀ (l : List (Bytes × α)) (key : Bytes) (v : α),
    alLookup (alInsert l key v) key = some v := by
  intro l
  induction l with
  | nil => intro key v; simp [alInsert, alLookup]
  | cons p rest ih =>
    intro key v
    obtain ⟨k, w⟩ := p
    rw [alInsert]
    by_cases h : key = k
    · simp [alLookup, h]
    · rw [if_neg h, alLookup, if_neg h, ih]

/-- Looking up a different key after an insert into an association list. -/
theorem alLookup_alInsert_ne {α : Type} : ∀ (l : List (Bytes × α)) (key key' : Bytes) (v : α),
    key' ≠ key → alLookup (alInsert l key v) key' = alLookup l key' := by
  intro l
  induction l with
  | nil => intro key key' v h; simp [alInsert, alLookup, h]
  | cons p rest ih =>
    intro key key' v h
    obtain ⟨k, w⟩ := p
    rw [alInsert]
    by_cases hk : key = k
    · subst hk
      simp [alLookup, if_neg h]
    · rw [if_neg hk]
      by_cases hk' : key' = k
      · simp [alLookup, hk']
      · simp only [alLookup, if_neg hk', ih _ _ _ h]

/-- Big-endian encoding has exactly the requested width. -/
theorem beBytes_length : ∀ (k n : Nat), (beBytes k n).length = k := by
  intro k
  induction k with
  | zero => intro n; rfl
  | succ k ih => intro n; simp [beBytes, ih]

/-- One SHA-256 round keeps the eight-word state shape. -/
theorem shaRound_length (s : List Nat) (kw : Nat × Nat) : (shaRound s kw).length = 8 := by
  simp [shaRound]

/-- Folding rounds keeps the eight-word state shape. -/
theorem foldl_shaRound_length : ∀ (l : List (Nat × Nat)) (s : List Nat), s.length = 8 →
    (l.foldl shaRound s).length = 8 := by
  intro l
  induction l with
  | nil => intro s hs; exact hs
  | cons kw l ih => intro s hs; exact ih (shaRound s kw) (shaRound_length s kw)

/-- Block compression keeps the eight-word state shape. -/
theorem shaCompress_length (h : List Nat) (b : Bytes) (hh : h.length = 8) :
    (shaCompress h b).length = 8 := by
  rw [shaCompress, List.length_zipWith, hh,
    foldl_shaRound_length _ h hh, Nat.min_self]

/-- Folding block compressions keeps the eight-word state shape. -/
theorem foldl_shaCompress_length : ∀ (blocks : List Bytes) (h : List Nat), h.length = 8 →
    (blocks.foldl shaCompress h).length = 8 := by
  intro blocks
  induction blocks with
  | nil => intro h hh; exact hh
  | cons b blocks ih => intro h hh; exact ih (shaCompress h b) (shaCompress_length h b hh)

/-- Word-to-byte expansion length. -/
theorem flatMap_beBytes4_length : ∀ l : List Nat, (l.flatMap (beBytes 4)).length = 4 * l.length := by
  intro l
  induction l with
  | nil => rfl
  | cons x xs ih => simp [List.flatMap_cons, beBytes_length, ih]; omega

/-- Hex expansion length. -/
theorem flatMap_hex_length : ∀ l : List Nat,
    (l.flatMap fun b => [hexChar (b / 16), hexChar (b % 16)]).length = 2 * l.length := by
  intro l
  induction l with
  | nil => rfl
  | cons x xs ih => simp [List.flatMap_cons, ih]; omega

/-- The hex digest always has 64 characters. -/
theorem sha256hex_length (data : Bytes) : (sha256hex data).length = 64 := by
  rw [sha256hex, flatMap_hex_length, flatMap_beBytes4_length,
    foldl_shaCompress_length _ shaH0 (by rfl)]

/-- Every chunk the static chunker emits has bytes of its declared size,
a size bounded by the remaining input, and fits inside the input window. -/
theorem staticChunksAux_mem (cs : Nat) : ∀ (f : Nat) (rem : Bytes) (start : Nat)
    (x : Nat × Nat × Bytes), x ∈ staticChunksAux cs f rem start →
    x.2.2.length = x.2.1 ∧ x.2.1 ≤ rem.length ∧ x.1 + x.2.1 ≤ start + rem.length := by
  intro f
  induction f with
  | zero => intro rem start x hx; cases hx
  | succ f ih =>
    intro rem start x hx
    cases rem with
    | nil => cases hx
    | cons r rs =>
      rw [staticChunksAux] at hx
      rcases List.mem_cons.mp hx with rfl | hx
      · refine ⟨?_, ?_, ?_⟩
        · simp [List.length_take]
        · simp
        · simp
      · by_cases hlen : (r :: rs).length ≤ cs
        · have hd : (r :: rs).drop cs = [] := List.drop_eq_nil_of_le hlen
          rw [hd] at hx
          cases f <;> cases hx
        · have := ih ((r :: rs).drop cs) (start + cs) x hx
          have hdl : ((r :: rs).drop cs).length = (r :: rs).length - cs := by
            simp [List.length_drop]
          omega

/-- With a positive chunk size the chunk count never exceeds the input length. -/
theorem staticChunksAux_length_le (cs : Nat) (hcs : 0 < cs) : ∀ (f : Nat) (rem : Bytes)
    (start : Nat), (staticChunksAux cs f rem start).length ≤ rem.length := by
  intro f
  induction f with
  | zero => intro rem start; simp [staticChunksAux]
  | succ f ih =>
    intro rem start
    cases rem with
    | nil => simp [staticChunksAux]
    | cons r rs =>
      rw [staticChunksAux]
      have := ih ((r :: rs).drop cs) (start + cs)
      have hdl : ((r :: rs).drop cs).length = (r :: rs).length - cs := by
        simp [List.length_drop]
      simp only [List.length_cons] at *
      omega

/-- Helper form of the parallel-writer contract, shared by the write-path
lemmas: per-chunk extents in input order threaded through `CAS.put`. -/
theorem writeChunks_map (st : CASState) (c : Compressor)
    (chunks : List (Nat × Nat × Bytes))
    (h : ∀ x ∈ chunks, x.2.2.length = x.2.1) :
    ∃ st', writeChunks st c chunks =
      some (chunks.map fun x => ⟨x.1, x.2.1, (fingerprint x.2.2).2⟩, st') := by
  induction chunks generalizing st with
  | nil => exact ⟨st, rfl⟩
  | cons hd tl ih =>
    obtain ⟨st', hst⟩ := ih ((casPut st c hd.2.2).2) fun x hx => h x (List.mem_cons_of_mem _ hx)
    refine ⟨st', ?_⟩
    have hlen : hd.2.2.length = hd.2.1 := h hd (List.mem_cons_self _ _)
    obtain ⟨o, s, b⟩ := hd
    simp only [writeChunks, List.map_cons]
    simp only at hlen
    rw [if_pos hlen]
    simp [casPut] at hst ⊢
    rw [hst]

/-- `write_full` always succeeds on an in-memory buffer below `2^32` bytes:
it returns the decimal version key of the clock reading and inserts the
recipe fingerprint under that key into the name's index omap. -/
theorem writeFull_some (st : VState) (comp : Compressor) (name file : Bytes) (t cs : Nat)
    (hcs : 0 < cs) (hfile : file.length < 2 ^ 32) :
    ∃ rfp cas₂, writeFull st comp name file t cs =
      some (decBytes t, ⟨cas₂, omapSet st.index name (decBytes t) rfp⟩) := by
  have hsizes : ∀ x ∈ staticChunks cs file, x.2.2.length = x.2.1 :=
    fun x hx => (staticChunksAux_mem cs file.length file 0 x hx).1
  obtain ⟨cas₁, hch⟩ := writeChunks_map st.cas comp (staticChunks cs file) hsizes
  have hwf : ∀ e ∈ (staticChunks cs file).map
      (fun x => (⟨x.1, x.2.1, (fingerprint x.2.2).2⟩ : Extent)),
      e.off < 2 ^ 64 ∧ e.len < 2 ^ 64 ∧ e.fp.length < 2 ^ 32 := by
    intro e he
    obtain ⟨x, hx, rfl⟩ := List.mem_map.mp he
    obtain ⟨-, h2, h3⟩ := staticChunksAux_mem cs file.length file 0 x hx
    refine ⟨by simp; omega, by simp; omega, ?_⟩
    simp [fingerprint, sha256hex_length]
  have hn : ((staticChunks cs file).map
      (fun x => (⟨x.1, x.2.1, (fingerprint x.2.2).2⟩ : Extent))).length < 2 ^ 32 := by
    rw [List.length_map]
    have h1 := staticChunksAux_length_le cs hcs file.length file 0
    have he : staticChunks cs file = staticChunksAux cs file.length file 0 := rfl
    rw [he]
    omega
  obtain ⟨rbytes, hpack⟩ := packRecipeV_total 0 _ (by norm_num) hwf hn
  refine ⟨(casPut cas₁ comp rbytes).1, (casPut cas₁ comp rbytes).2, ?_⟩
  rw [writeFull, hch]
  simp only [Option.bind_eq_bind, Option.some_bind]
  rw [show packRecipe ((staticChunks cs file).map
      (fun x => (⟨x.1, x.2.1, (fingerprint x.2.2).2⟩ : Extent))) = some rbytes from hpack]
  rfl

/-- Driving a sequence of `write_full` calls whose version-key strings
strictly increase: the returned keys are the clock keys in call order, and
the name's omap accumulates them behind any existing keys. -/
theorem writeFullSeq_keys (comp : Compressor) (name : Bytes) (cs : Nat) (hcs : 0 < cs) :
    ∀ (calls : List (Bytes × Nat)) (st : VState) (m : List (Bytes × Bytes)),
    alLookup st.index name = some m →
    (∀ c ∈ calls, c.1.length < 2 ^ 32) →
    (∀ k ∈ m.map Prod.fst, ∀ c ∈ calls, bytesLt k (decBytes c.2) = true) →
    List.Chain' (fun a b => bytesLt a b = true) (calls.map fun c => decBytes c.2) →
    ∃ st' m', writeFullSeq st comp name cs calls =
        some (calls.map fun c => decBytes c.2, st') ∧
      alLookup st'.index name = some m' ∧
      m'.map Prod.fst = m.map Prod.fst ++ calls.map fun c => decBytes c.2 := by
  intro calls
  induction calls with
  | nil => intro st m hm _ _ _; exact ⟨st, m, rfl, hm, by simp⟩
  | cons c rest ih =>
    intro st m hm hfiles hlt hchain
    obtain ⟨file, t⟩ := c
    obtain ⟨rfp, cas₂, hwf⟩ :=
      writeFull_some st comp name file t cs hcs (hfiles _ (List.mem_cons_self _ _))
    have hins : omapInsert m (decBytes t) rfp = m ++ [(decBytes t, rfp)] :=
      omapInsert_append m _ rfp fun k hk => hlt k hk (file, t) (List.mem_cons_self _ _)
    have homap : omapSet st.index name (decBytes t) rfp =
        alInsert st.index name (m ++ [(decBytes t, rfp)]) := by
      rw [omapSet, hm]
      simp only [hins]
    have hm1 : alLookup (alInsert st.index name (m ++ [(decBytes t, rfp)])) name =
        some (m ++ [(decBytes t, rfp)]) := alLookup_alInsert_self _ _ _
    simp only [List.map_cons] at hchain
    have hchain' := (List.chain'_cons'.mp hchain).2
    have hlt1 : ∀ k ∈ (m ++ [(decBytes t, rfp)]).map Prod.fst, ∀ c' ∈ rest,
        bytesLt k (decBytes c'.2) = true := by
      intro k hk c' hc'
      rw [List.map_append] at hk
      rcases List.mem_append.mp hk with hk | hk
      · exact hlt k hk c' (List.mem_cons_of_mem _ hc')
      · simp only [List.map_cons, List.map_nil, List.mem_singleton] at hk
        subst hk
        exact bytesLt_chain_head _ _ hchain (decBytes c'.2)
          (List.mem_map.mpr ⟨c', hc', rfl⟩)
    obtain ⟨st', m', hseq, hl', hkeys⟩ :=
      ih ⟨cas₂, alInsert st.index name (m ++ [(decBytes t, rfp)])⟩
        (m ++ [(decBytes t, rfp)]) hm1
        (fun c' hc' => hfiles c' (List.mem_cons_of_mem _ hc')) hlt1 hchain'
    refine ⟨st', m', ?_, hl', ?_⟩
    · rw [writeFullSeq, hwf, homap]
      simp only [Option.bind_eq_bind, Option.some_bind]
      rw [hseq]
      rfl
    · rw [hkeys]
      simp

/-- C6 (amended): `make_index_version` is the wall-clock millisecond
reading, so a `write_full` call's version key is `str(now_ms)`; when the
key strings of successive calls on a fresh name strictly increase (the
clock advanced by at least one millisecond per call, within keys of equal
digit count), every call returns a key strictly above all earlier ones,
n calls yield n pairwise distinct keys, and `head_version` returns the
last call's key. -/
theorem C6_version_keys_increase_with_clock (st : VState) (comp : Compressor)
    (name : Bytes) (cs : Nat) (calls : List (Bytes × Nat))
    (hfresh : alLookup st.index name = none)
    (hcs : 0 < cs)
    (hfiles : ∀ c ∈ calls, c.1.length < 2 ^ 32)
    (hchain : List.Chain' (fun a b => bytesLt a b = true) (calls.map fun c => decBytes c.2))
    (hne : calls ≠ []) :
    ∃ st', writeFullSeq st comp name cs calls =
        some (calls.map fun c => decBytes c.2, st') ∧
      versionsOp st' name = some (calls.map fun c => decBytes c.2) ∧
      (calls.map fun c => decBytes c.2).Pairwise (fun a b => bytesLt a b = true) ∧
      headVersion st' name = some ((calls.map fun c => decBytes c.2).getLast?) := by
  cases calls with
  | nil => exact absurd rfl hne
  | cons c rest =>
    obtain ⟨file, t⟩ := c
    obtain ⟨rfp, cas₂, hwf⟩ :=
      writeFull_some st comp name file t cs hcs (hfiles _ (List.mem_cons_self _ _))
    have homap : omapSet st.index name (decBytes t) rfp =
        alInsert st.index name [(decBytes t, rfp)] := by
      rw [omapSet, hfresh]
    have hm1 : alLookup (alInsert st.index name [(decBytes t, rfp)]) name =
        some [(decBytes t, rfp)] := alLookup_alInsert_self _ _ _
    simp only [List.map_cons] at hchain
    have hchain' := (List.chain'_cons'.mp hchain).2
    have hlt1 : ∀ k ∈ [(decBytes t, rfp)].map Prod.fst, ∀ c' ∈ rest,
        bytesLt k (decBytes c'.2) = true := by
      intro k hk c' hc'
      simp only [List.map_cons, List.map_nil, List.mem_singleton] at hk
      subst hk
      exact bytesLt_chain_head _ _ hchain (decBytes c'.2)
        (List.mem_map.mpr ⟨c', hc', rfl⟩)
    obtain ⟨st', m', hseq, hl', hkeys⟩ :=
      writeFullSeq_keys comp name cs hcs rest
        ⟨cas₂, alInsert st.index name [(decBytes t, rfp)]⟩ [(decBytes t, rfp)] hm1
        (fun c' hc' => hfiles c' (List.mem_cons_of_mem _ hc')) hlt1 hchain'
    have hkeys' : m'.map Prod.fst = decBytes t :: rest.map fun c => decBytes c.2 := by
      rw [hkeys]; rfl
    refine ⟨st', ?_, ?_, ?_, ?_⟩
    · rw [writeFullSeq, hwf, homap]
      simp only [Option.bind_eq_bind, Option.some_bind]
      rw [hseq]
      rfl
    · rw [versionsOp, versionsAndRecipes, hl']
      simp [hkeys']
    · exact bytesLt_chain_pairwise _ hchain
    · rw [headVersion, versionsOp, versionsAndRecipes, hl']
      have : pyMaxBytes (m'.map Prod.fst) =
          (decBytes t :: rest.map fun c => decBytes c.2).getLast? := by
        rw [hkeys', pyMaxBytes_chain _ hchain]
      simp [this]

set_option maxRecDepth 400000 in
/-- C6 (counterexample): two `write_full` calls on the same name within the
same millisecond (clock reading 1700000000000 in both) return the very same
version key — the second is not strictly greater — and the second insert
overwrites the first omap entry, so `versions` reports a single version
after two calls. -/
theorem C6_counterexample_same_millisecond :
    c6run2.map Prod.fst = c6run1.map Prod.fst ∧
    (c6run2.map fun p => versionsOp p.2 c6name) = some (some [decBytes 1700000000000]) ∧
    c6run1.isSome = true := by decide

/-- C6 witness: two calls, clock readings 100 ms and 205 ms apart give
strictly increasing key strings. -/
theorem C6_witness :
    ∃ st', writeFullSeq vInit noCompressor c6name 4 [([0], 100), ([1], 205)] =
        some ([([0], 100), ([1], 205)].map fun c => decBytes c.2, st') ∧
      versionsOp st' c6name = some ([([0], 100), ([1], 205)].map fun c => decBytes c.2) ∧
      ([([0], 100), ([1], 205)].map fun c => decBytes c.2).Pairwise
        (fun a b => bytesLt a b = true) ∧
      headVersion st' c6name =
        some (([([0], 100), ([1], 205)].map fun c => decBytes c.2).getLast?) :=
  C6_version_keys_increase_with_clock vInit noCompressor c6name 4 _
    (by decide) (by decide) (by decide)
    (by exact List.chain'_cons.mpr ⟨by decide, List.chain'_singleton _⟩) (by decide)

/-- Lookup of an absent key. -/
theorem alLookup_eq_none_of_not_mem {α : Type} : ∀ (l : List (Bytes × α)) (key : Bytes),
    key ∉ l.map Prod.fst → alLookup l key = none := by
  intro l
  induction l with
  | nil => intro key _; rfl
  | cons p rest ih =>
    intro key h
    obtain ⟨k, w⟩ := p
    simp only [List.map_cons, List.mem_cons, not_or] at h
    rw [alLookup, if_neg h.1, ih key h.2]

/-- Removing a key (under key uniqueness) makes its lookup fail. -/
theorem alLookup_alRemove_self {α : Type} : ∀ (l : List (Bytes × α)) (key : Bytes),
    (l.map Prod.fst).Nodup → alLookup (alRemove l key) key = none := by
  intro l
  induction l with
  | nil => intro key _; rfl
  | cons p rest ih =>
    intro key h
    obtain ⟨k, w⟩ := p
    simp only [List.map_cons, List.nodup_cons] at h
    rw [alRemove]
    by_cases hk : key = k
    · subst hk
      rw [if_pos rfl]
      exact alLookup_eq_none_of_not_mem rest key h.1
    · rw [if_neg hk]
      simp only [alLookup]
      rw [if_neg hk, ih key h.2]

/-- Removing one key leaves the other lookups alone. -/
theorem alLookup_alRemove_ne {α : Type} : ∀ (l : List (Bytes × α)) (key key' : Bytes),
    key' ≠ key → alLookup (alRemove l key) key' = alLookup l key' := by
  intro l
  induction l with
  | nil => intro key key' _; rfl
  | cons p rest ih =>
    intro key key' h
    obtain ⟨k, w⟩ := p
    rw [alRemove]
    by_cases hk : key = k
    · subst hk
      rw [if_pos rfl]
      simp only [alLookup, if_neg h]
    · rw [if_neg hk]
      simp only [alLookup]
      by_cases hk' : key' = k
      · rw [if_pos hk', if_pos hk']
      · rw [if_neg hk', if_neg hk', ih key key' h]

/-- Keys after an insert are the inserted key or old keys. -/
theorem alInsert_keys_subset {α : Type} : ∀ (l : List (Bytes × α)) (key : Bytes) (v : α)
    (x : Bytes), x ∈ (alInsert l key v).map Prod.fst → x = key ∨ x ∈ l.map Prod.fst := by
  intro l
  induction l with
  | nil => intro key v x hx; simp [alInsert] at hx; exact Or.inl hx
  | cons p rest ih =>
    intro key v x hx
    obtain ⟨k, w⟩ := p
    rw [alInsert] at hx
    by_cases hk : key = k
    · rw [if_pos hk] at hx
      simp only [List.map_cons, List.mem_cons] at hx
      rcases hx with rfl | hx
      · exact Or.inl rfl
      · exact Or.inr (by simp [hx])
    · rw [if_neg hk] at hx
      simp only [List.map_cons, List.mem_cons] at hx
      rcases hx with rfl | hx
      · exact Or.inr (by simp)
      · rcases ih key v x hx with h | h
        · exact Or.inl h
        · exact Or.inr (by simp [h])

/-- Insertion preserves key uniqueness. -/
theorem alInsert_nodup {α : Type} : ∀ (l : List (Bytes × α)) (key : Bytes) (v : α),
    (l.map Prod.fst).Nodup → ((alInsert l key v).map Prod.fst).Nodup := by
  intro l
  induction l with
  | nil => intro key v _; simp [alInsert]
  | cons p rest ih =>
    intro key v h
    obtain ⟨k, w⟩ := p
    simp only [List.map_cons, List.nodup_cons] at h
    rw [alInsert]
    by_cases hk : key = k
    · subst hk
      rw [if_pos rfl]
      simp only [List.map_cons, List.nodup_cons]
      exact h
    · simp only [if_neg hk, List.map_cons, List.nodup_cons]
      refine ⟨?_, ih key v h.2⟩
      intro hmem
      rcases alInsert_keys_subset rest key v k hmem with rfl | hmem
      · exact hk rfl
      · exact h.1 hmem

/-- Removal preserves key uniqueness. -/
theorem alRemove_nodup {α : Type} : ∀ (l : List (Bytes × α)) (key : Bytes),
    (l.map Prod.fst).Nodup → ((alRemove l key).map Prod.fst).Nodup := by
  intro l
  induction l with
  | nil => intro key _; simp [alRemove]
  | cons p rest ih =>
    intro key h
    obtain ⟨k, w⟩ := p
    simp only [List.map_cons, List.nodup_cons] at h
    rw [alRemove]
    by_cases hk : key = k
    · rw [if_pos hk]; exact h.2
    · rw [if_neg hk]
      simp only [List.map_cons, List.nodup_cons]
      refine ⟨?_, ih key h.2⟩
      intro hmem
      have : (alRemove rest key).map Prod.fst ⊆ rest.map Prod.fst := by
        intro x hx
        clear h hmem ih
        induction rest with
        | nil => cases hx
        | cons q tail ihq =>
          obtain ⟨kq, wq⟩ := q
          rw [alRemove] at hx
          by_cases hq : key = kq
          · rw [if_pos hq] at hx; simp [hx]
          · rw [if_neg hq] at hx
            simp only [List.map_cons, List.mem_cons] at hx
            rcases hx with rfl | hx
            · simp
            · simp [ihq hx]
      exact h.1 (this hmem)

/-- `CAS.down` on one fingerprint leaves the others' objects alone. -/
theorem casDown_lookup_ne (c : CASState) (fp f : Bytes) (h : fp ≠ f) :
    alLookup (casDown c f).2 fp = alLookup c fp := by
  cases hl : alLookup c f with
  | none => simp [casDown, backendDown, hl]
  | some obj =>
    by_cases hrc : obj.rc ≤ 1
    · simp only [casDown, backendDown, hl, if_pos hrc]
      exact alLookup_alRemove_ne c f fp h
    · simp only [casDown, backendDown, hl, if_neg hrc]
      exact alLookup_alInsert_ne c f fp _ h

/-- `CAS.down` decrements the target's refcount, deleting it at zero. -/
theorem casDown_lookup_self (c : CASState) (fp : Bytes) (obj : CASObj)
    (h : alLookup c fp = some obj) (hnd : (c.map Prod.fst).Nodup) :
    alLookup (casDown c fp).2 fp =
      if obj.rc ≤ 1 then none else some { obj with rc := obj.rc - 1 } := by
  by_cases hrc : obj.rc ≤ 1
  · simp only [casDown, backendDown, h, if_pos hrc]
    exact alLookup_alRemove_self c fp hnd
  · simp only [casDown, backendDown, h, if_neg hrc]
    exact alLookup_alInsert_self c fp _

/-- `CAS.down` preserves key uniqueness of the store. -/
theorem casDown_nodup (c : CASState) (f : Bytes) (hnd : (c.map Prod.fst).Nodup) :
    ((casDown c f).2.map Prod.fst).Nodup := by
  cases hl : alLookup c f with
  | none => simpa [casDown, backendDown, hl] using hnd
  | some obj =>
    by_cases hrc : obj.rc ≤ 1
    · simp only [casDown, backendDown, hl, if_pos hrc]
      exact alRemove_nodup c f hnd
    · simp only [casDown, backendDown, hl, if_neg hrc]
      exact alInsert_nodup c f _ hnd

/-- Folding `CAS.down` over fingerprints not containing `fp` leaves `fp`'s
object alone. -/
theorem foldDown_lookup_notMem : ∀ (l : List Bytes) (c : CASState) (fp : Bytes),
    fp ∉ l → alLookup (l.foldl (fun c f => (casDown c f).2) c) fp = alLookup c fp := by
  intro l
  induction l with
  | nil => intro c fp _; rfl
  | cons f l ih =>
    intro c fp h
    simp only [List.mem_cons, not_or] at h
    rw [List.foldl_cons, ih _ fp h.2, casDown_lookup_ne c fp f h.1]

/-- Folding `CAS.down` preserves key uniqueness of the store. -/
theorem foldDown_nodup : ∀ (l : List Bytes) (c : CASState),
    (c.map Prod.fst).Nodup → ((l.foldl (fun c f => (casDown c f).2) c).map Prod.fst).Nodup := by
  intro l
  induction l with
  | nil => intro c h; exact h
  | cons f l ih =>
    intro c h
    rw [List.foldl_cons]
    exact ih _ (casDown_nodup c f h)

/-- Folding `CAS.down` over pairwise-distinct fingerprints decrements each
member's refcount exactly once (deleting at zero). -/
theorem foldDown_lookup_mem : ∀ (l : List Bytes) (c : CASState) (fp : Bytes) (obj : CASObj),
    fp ∈ l → l.Pairwise (· ≠ ·) → (c.map Prod.fst).Nodup → alLookup c fp = some obj →
    alLookup (l.foldl (fun c f => (casDown c f).2) c) fp =
      if obj.rc ≤ 1 then none else some { obj with rc := obj.rc - 1 } := by
  intro l
  induction l with
  | nil => intro c fp obj h; cases h
  | cons f l ih =>
    intro c fp obj hmem hpw hnd hl
    rw [List.foldl_cons]
    rcases List.mem_cons.mp hmem with rfl | hmem
    · have hnot : fp ∉ l := by
        intro hx
        exact absurd rfl ((List.pairwise_cons.mp hpw).1 fp hx)
      rw [foldDown_lookup_notMem l _ fp hnot]
      exact casDown_lookup_self c fp obj hl hnd
    · have hne : fp ≠ f := Ne.symm ((List.pairwise_cons.mp hpw).1 fp hmem)
      exact ih _ fp obj hmem (List.pairwise_cons.mp hpw).2 (casDown_nodup c f hnd)
        ((casDown_lookup_ne c fp f hne).trans hl)

/-- Decoded extent tuples convert back to the extents they came from. -/
theorem extentsOfMVal_map : ∀ E : List Extent,
    extentsOfMVal (.arr (E.map Extent.toMVal)) = some E := by
  intro E
  induction E with
  | nil => rfl
  | cons e E ih =>
    simp only [extentsOfMVal] at ih
    obtain ⟨o, l, f⟩ := e
    simp only [List.map_cons, extentsOfMVal, Extent.toMVal, extentTriples, ih]
    rfl

/-- C7: on a name holding exactly one version `v` (bound to recipe object
`rfp`, whose stored bytes unpack to the extent list `E` with pairwise
distinct chunk fingerprints), `remove_version(name, v)` removes only the
key `v` from the name's index omap — the index object itself survives,
with `head_version` then reporting "no versions" — decrements the refcount
of each extent fingerprint and of the recipe object (the backend deleting
any that reach zero), and touches no other index entry or CAS object;
`remove_all_versions(name)` additionally deletes the index object, so a
subsequent access fails as absent. -/
theorem C7_remove_version_keeps_index_object (st : VState) (name v rfp rbytes : Bytes)
    (E : List Extent)
    (h1 : alLookup st.index name = some [(v, rfp)])
    (h2 : v ≠ headBytes)
    (h3 : casGet compressorSelect st.cas rfp 0 (-1) = some rbytes)
    (h4 : unpackRecipe rbytes = .ok (.arr (E.map Extent.toMVal)))
    (h5 : (E.map Extent.fp).Pairwise (· ≠ ·))
    (h6 : rfp ∉ E.map Extent.fp)
    (h8 : (st.cas.map Prod.fst).Nodup)
    (h9 : (st.index.map Prod.fst).Nodup) :
    ∃ st', removeVersion st name v = some st' ∧
      alLookup st'.index name = some [] ∧
      headVersion st' name = some none ∧
      (∀ n', n' ≠ name → alLookup st'.index n' = alLookup st.index n') ∧
      (∀ f obj, f ∈ E.map Extent.fp → alLookup st.cas f = some obj →
        casRc st'.cas f = if obj.rc ≤ 1 then none else some (obj.rc - 1)) ∧
      (∀ obj, alLookup st.cas rfp = some obj →
        casRc st'.cas rfp = if obj.rc ≤ 1 then none else some (obj.rc - 1)) ∧
      (∀ f, f ∉ E.map Extent.fp → f ≠ rfp → alLookup st'.cas f = alLookup st.cas f) ∧
      ∃ st'', removeAllVersions st name = some st'' ∧
        alLookup st''.index name = none ∧ headVersion st'' name = none := by
  have hres : resolveRecipe st name v = some (v, rfp) := by
    rw [resolveRecipe, versionsAndRecipes, h1]
    simp only [Option.bind_eq_bind, Option.some_bind]
    rw [if_neg (by simp), if_neg h2]
    simp [dictLookup, alLookup]
  set cas₁ := (E.map Extent.fp).foldl (fun c f => (casDown c f).2) st.cas with hcas₁
  have hrm : removeVersion st name v =
      some ⟨(casDown cas₁ rfp).2, omapRemoveKeys st.index name [v]⟩ := by
    rw [removeVersion, hres]
    simp only [Option.bind_eq_bind, Option.some_bind]
    rw [h3]
    simp only [Option.some_bind]
    rw [h4]
    simp only [Option.some_bind]
    rw [extentsOfMVal_map]
    simp only [Option.some_bind]
  have hidx : omapRemoveKeys st.index name [v] = alInsert st.index name [] := by
    rw [omapRemoveKeys, h1]
    simp
  refine ⟨⟨(casDown cas₁ rfp).2, omapRemoveKeys st.index name [v]⟩, hrm, ?_, ?_, ?_, ?_, ?_, ?_, ?_⟩
  · rw [hidx]
    exact alLookup_alInsert_self _ _ _
  · rw [headVersion, versionsOp, versionsAndRecipes]
    show (Option.map _ (Option.map _ (alLookup (omapRemoveKeys st.index name [v]) name))) = _
    rw [hidx, alLookup_alInsert_self]
    rfl
  · intro n' hn'
    rw [hidx]
    exact alLookup_alInsert_ne _ _ _ _ hn'
  · intro f obj hf hobj
    have hne : f ≠ rfp := fun he => h6 (he ▸ hf)
    rw [casRc, casDown_lookup_ne cas₁ f rfp hne, hcas₁,
      foldDown_lookup_mem (E.map Extent.fp) st.cas f obj hf h5 h8 hobj]
    by_cases hrc : obj.rc ≤ 1 <;> simp [hrc]
  · intro obj hobj
    have hl₁ : alLookup cas₁ rfp = some obj := by
      rw [hcas₁, foldDown_lookup_notMem _ _ _ h6, hobj]
    rw [casRc, casDown_lookup_self cas₁ rfp obj hl₁ (foldDown_nodup _ _ h8)]
    by_cases hrc : obj.rc ≤ 1 <;> simp [hrc]
  · intro f hf hne
    show alLookup (casDown cas₁ rfp).2 f = alLookup st.cas f
    rw [casDown_lookup_ne cas₁ f rfp hne, hcas₁, foldDown_lookup_notMem _ _ _ hf]
  · refine ⟨⟨(casDown cas₁ rfp).2, alRemove (omapRemoveKeys st.index name [v]) name⟩, ?_, ?_, ?_⟩
    · rw [removeAllVersions, versionsAndRecipes, h1]
      simp only [Option.bind_eq_bind, Option.some_bind, List.foldlM_cons, List.foldlM_nil]
      rw [hrm]
      rfl
    · rw [hidx]
      exact alLookup_alRemove_self _ _ (alInsert_nodup _ _ _ h9)
    · rw [headVersion, versionsOp, versionsAndRecipes]
      show (Option.map _ (Option.map _
        (alLookup (alRemove (omapRemoveKeys st.index name [v]) name) name))) = _
      rw [hidx, alLookup_alRemove_self _ _ (alInsert_nodup _ _ _ h9)]
      rfl

/-- C7 witness: a one-version name whose recipe holds the single extent
`(0, 1, "a")`; the chunk object has refcount 2, the recipe object 1. -/
theorem C7_witness :
    ∃ st', removeVersion
        ⟨[([114], ⟨1, [146, 145, 0, 145, 147, 0, 1, 161, 97], noIdent⟩),
          ([97], ⟨2, [5], noIdent⟩)],
         [([110], [([49], [114])])]⟩ [110] [49] = some st' ∧
      alLookup st'.index [110] = some [] ∧
      headVersion st' [110] = some none ∧
      (∀ n', n' ≠ [110] → alLookup st'.index n' =
        alLookup ([([110], [([49], [114])])] : IndexState) n') ∧
      (∀ f obj, f ∈ ([⟨0, 1, [97]⟩] : List Extent).map Extent.fp →
        alLookup ([([114], ⟨1, [146, 145, 0, 145, 147, 0, 1, 161, 97], noIdent⟩),
          ([97], ⟨2, [5], noIdent⟩)] : CASState) f = some obj →
        casRc st'.cas f = if obj.rc ≤ 1 then none else some (obj.rc - 1)) ∧
      (∀ obj, alLookup ([([114], ⟨1, [146, 145, 0, 145, 147, 0, 1, 161, 97], noIdent⟩),
          ([97], ⟨2, [5], noIdent⟩)] : CASState) [114] = some obj →
        casRc st'.cas [114] = if obj.rc ≤ 1 then none else some (obj.rc - 1)) ∧
      (∀ f, f ∉ ([⟨0, 1, [97]⟩] : List Extent).map Extent.fp → f ≠ [114] →
        alLookup st'.cas f =
          alLookup ([([114], ⟨1, [146, 145, 0, 145, 147, 0, 1, 161, 97], noIdent⟩),
            ([97], ⟨2, [5], noIdent⟩)] : CASState) f) ∧
      ∃ st'', removeAllVersions
          ⟨[([114], ⟨1, [146, 145, 0, 145, 147, 0, 1, 161, 97], noIdent⟩),
            ([97], ⟨2, [5], noIdent⟩)],
           [([110], [([49], [114])])]⟩ [110] = some st'' ∧
        alLookup st''.index [110] = none ∧ headVersion st'' [110] = none :=
  C7_remove_version_keeps_index_object
    ⟨[([114], ⟨1, [146, 145, 0, 145, 147, 0, 1, 161, 97], noIdent⟩),
      ([97], ⟨2, [5], noIdent⟩)],
     [([110], [([49], [114])])]⟩ [110] [49] [114]
    [146, 145, 0, 145, 147, 0, 1, 161, 97] [⟨0, 1, [97]⟩]
    (by decide) (by decide) (by decide) (by rfl) (by decide) (by decide)
    (by decide) (by decide)
